import Mathlib

/-!
# aka-prefetch: origin-assisted prefetch relay

A shallow embedding of `main.go` (the request handler passed to
`fsthttp.ServeFunc`) together with the parts of the Go standard library it
calls (`strings`, `path`, `net/url`) and of the `fsthttp` header map.

Conventions of the embedding:

* a Go `string` that holds text (header values, URLs, paths) is a `Str`, a list
  of Unicode code points; inputs are taken to be valid UTF-8;
* a percent-decoded URL component is a `Bytes`, a list of byte values;
* a Go `error` result is `Option`: `none` stands for `err != nil`;
* the handler's effects on the outside world (writes to the client, requests to
  the backend, diagnostic prints) are recorded, in order, as a list of `Event`s;
* the backend is a function from the number of the `Send` call to its result,
  so that a theorem over all backends covers every outcome of every send.

What is taken from the libraries rather than from `main.go`:

* `strings`, `path` and `net/url` follow the Go sources (`net/url` as it stands
  in Go 1.19 to 1.24);
* `fsthttp.Header` is a map from canonical header names to value lists, with
  `Get`, `Values`, `Add`, `Del` and `Reset` as documented by the SDK;
* `Request.Send` returns either a response or an error together with a nil
  response, and reading a field of a nil response panics.
-/

set_option autoImplicit false

namespace AkaPrefetch

/-- Text held by a Go `string`: a sequence of code points. -/
abbrev Str := List Char

/-- A byte string: what percent-decoding a URL component yields. -/
abbrev Bytes := List Nat

/-! ## Package `strings` -/

/-- `strings.HasPrefix`. -/
def HasPrefix (s pre : Str) : Bool := pre.isPrefixOf s

/-- `strings.HasSuffix`. -/
def HasSuffix (s suf : Str) : Bool := suf.reverse.isPrefixOf s.reverse

/-- `strings.Split(s, sep)` for a one-character separator: the pieces of `s`
between the occurrences of `sep`; the empty string yields one empty piece. -/
def Split (sep : Char) : Str → List Str
  | [] => [[]]
  | c :: cs =>
    if c = sep then [] :: Split sep cs
    else match Split sep cs with
      | [] => [[c]]
      | s :: ss => (c :: s) :: ss

/-- `unicode.IsSpace`: in Latin-1 the characters `\t`, `\n`, `\v`, `\f`, `\r`,
space, U+0085 and U+00A0; beyond it the characters with the Unicode property
White_Space. -/
def isSpace (c : Char) : Bool :=
  c = '\t' || c = '\n' || c.toNat = 0x0B || c.toNat = 0x0C || c = '\r' || c = ' '
    || c.toNat = 0x85 || c.toNat = 0xA0 || c.toNat = 0x1680
    || (0x2000 ≤ c.toNat && c.toNat ≤ 0x200A)
    || c.toNat = 0x2028 || c.toNat = 0x2029 || c.toNat = 0x202F
    || c.toNat = 0x205F || c.toNat = 0x3000

/-- `strings.TrimSpace`: all leading and trailing white space removed. -/
def TrimSpace (s : Str) : Str :=
  ((s.dropWhile isSpace).reverse.dropWhile isSpace).reverse

/-- `strings.Cut(s, sep)` for a one-character separator, without the `found`
flag (no caller reads it): the text before the first `sep` and the text after
it; when `sep` does not occur, all of `s` and the empty string. -/
def Cut (s : Str) (sep : Char) : Str × Str :=
  (s.takeWhile (fun c => c != sep), (s.dropWhile (fun c => c != sep)).drop 1)

/-- Split at the last occurrence of `sep` (`strings.LastIndex` with a
one-character separator): `none` when `sep` does not occur, else the text
before the last `sep` and the text from that `sep` on. -/
def cutLast (s : Str) (sep : Char) : Option (Str × Str) :=
  if sep ∈ s then
    let tailRev := s.reverse.takeWhile (fun c => c != sep)
    some (s.take (s.length - tailRev.length - 1), s.drop (s.length - tailRev.length - 1))
  else none

/-- `strings.Index(s, pat)`: the first position at which `pat` occurs. -/
def Index (pat : Str) : Str → Option Nat
  | [] => if pat = [] then some 0 else none
  | c :: cs =>
    if pat.isPrefixOf (c :: cs) then some 0
    else (Index pat cs).map (fun i => i + 1)

/-- `strings.ToLower` on ASCII text (the only text it is applied to: a scheme,
which `getScheme` has checked to be ASCII letters, digits, `+`, `-`, `.`). -/
def ToLower (s : Str) : Str :=
  s.map (fun c => if 'A'.toNat ≤ c.toNat ∧ c.toNat ≤ 'Z'.toNat then Char.ofNat (c.toNat + 32) else c)

/-! ## Package `path` -/

/-- The inner loop of the `..` case of `path.Clean`: `out.w` has just been
decremented past `last`; keep dropping while `out.w > dotdot` and the byte at
`out.w` is not a slash. The buffer is held in reverse (its top first). -/
def cleanBacktrack (dotdot : Nat) : Char → List Char → List Char
  | _, [] => []
  | last, c :: cs =>
    if (c :: cs).length > dotdot ∧ last ≠ '/' then cleanBacktrack dotdot c cs
    else c :: cs

/-- The main loop of `path.Clean`, one path byte per step. `inElem` is true
while the default case copies a path element (the inner `for` of that case);
`out` is the output buffer in reverse and `dotdot` the index where `..` must
stop. -/
def cleanLoop (rooted : Bool) : List Char → Bool → List Char → Nat → List Char
  | [], _, out, _ => out
  | c :: rest, true, out, dotdot =>
    if c = '/' then cleanLoop rooted rest false out dotdot
    else cleanLoop rooted rest true (c :: out) dotdot
  | c :: rest, false, out, dotdot =>
    if c = '/' then
      -- empty path element
      cleanLoop rooted rest false out dotdot
    else if c = '.' ∧ (rest = [] ∨ rest.head? = some '/') then
      -- . element
      cleanLoop rooted rest false out dotdot
    else if c = '.' ∧ rest.head? = some '.' ∧ (rest.tail = [] ∨ rest.tail.head? = some '/') then
      -- .. element: remove to last /
      match rest with
      | [] => out
      | _ :: rest2 =>
        if out.length > dotdot then
          match out with
          | [] => cleanLoop rooted rest2 false out dotdot
          | top :: below => cleanLoop rooted rest2 false (cleanBacktrack dotdot top below) dotdot
        else if !rooted then
          let out1 := if out.length > 0 then '/' :: out else out
          cleanLoop rooted rest2 false ('.' :: '.' :: out1) (out1.length + 2)
        else cleanLoop rooted rest2 false out dotdot
    else
      -- real path element: add slash if needed, then copy the element
      let out1 := if (rooted ∧ out.length ≠ 1) ∨ (¬ rooted ∧ out.length ≠ 0) then '/' :: out else out
      cleanLoop rooted rest true (c :: out1) dotdot

/-- `path.Clean`: the shortest path name equivalent to `path` by purely
lexical processing. -/
def Clean (path : Str) : Str :=
  match path with
  | [] => ['.']
  | c :: rest =>
    let out :=
      if c = '/' then cleanLoop true rest false ['/'] 1
      else cleanLoop false (c :: rest) false [] 0
    if out = [] then ['.'] else out.reverse

/-- `path.Split` restricted to its first result: the path up to and including
its final slash (empty when the path has no slash). -/
def splitDir (path : Str) : Str :=
  (path.reverse.dropWhile (fun c => c != '/')).reverse

/-- `path.Dir`: all but the last element of `path`, cleaned. -/
def Dir (path : Str) : Str := Clean (splitDir path)

/-! ## Package `net/url`

The parser and printer of Go's `net/url` (`Parse`, `URL.String` and what they
call), as they stand in Go 1.19 to 1.24. -/

/-- The `encoding` modes of `net/url`. -/
inductive encoding
  | encodePath
  | encodePathSegment
  | encodeHost
  | encodeZone
  | encodeUserPassword
  | encodeQueryComponent
  | encodeFragment
  deriving DecidableEq, Repr

open encoding

/-- UTF-8 encoding of one code point: the bytes a Go string holds for it. -/
def utf8EncodeChar (c : Char) : Bytes :=
  let n := c.toNat
  if n < 0x80 then [n]
  else if n < 0x800 then [0xC0 + n / 64, 0x80 + n % 64]
  else if n < 0x10000 then [0xE0 + n / 4096, 0x80 + n / 64 % 64, 0x80 + n % 64]
  else [0xF0 + n / 262144, 0x80 + n / 4096 % 64, 0x80 + n / 64 % 64, 0x80 + n % 64]

/-- `ishex`. -/
def ishex (c : Char) : Bool :=
  ('0'.toNat ≤ c.toNat && c.toNat ≤ '9'.toNat)
    || ('a'.toNat ≤ c.toNat && c.toNat ≤ 'f'.toNat)
    || ('A'.toNat ≤ c.toNat && c.toNat ≤ 'F'.toNat)

/-- `unhex`. -/
def unhex (c : Char) : Nat :=
  if '0'.toNat ≤ c.toNat ∧ c.toNat ≤ '9'.toNat then c.toNat - '0'.toNat
  else if 'a'.toNat ≤ c.toNat ∧ c.toNat ≤ 'f'.toNat then c.toNat - 'a'.toNat + 10
  else if 'A'.toNat ≤ c.toNat ∧ c.toNat ≤ 'F'.toNat then c.toNat - 'A'.toNat + 10
  else 0

/-- The ASCII letters and digits. -/
def isAlnum (c : Nat) : Bool :=
  ('a'.toNat ≤ c && c ≤ 'z'.toNat) || ('A'.toNat ≤ c && c ≤ 'Z'.toNat)
    || ('0'.toNat ≤ c && c ≤ '9'.toNat)

/-- The byte values of the characters of a string literal. -/
def codes (s : String) : List Nat := s.toList.map Char.toNat

/-- `shouldEscape`: whether byte `c` must be percent-escaped when it appears in
the URL component that `mode` names. -/
def shouldEscape (c : Nat) (mode : encoding) : Bool :=
  -- §2.3 Unreserved characters (alphanum)
  if isAlnum c then false
  -- §3.2.2 Host allows sub-delims, and : [ ] < > "
  else if (mode = encodeHost ∨ mode = encodeZone) ∧ c ∈ codes "!$&'()*+,;=:[]<>\"" then false
  -- §2.3 Unreserved characters (mark)
  else if c ∈ codes "-_.~" then false
  -- §2.2 Reserved characters (reserved)
  else if c ∈ codes "$&+,/:;=?@" then
    match mode with
    | encodePath => c = '?'.toNat
    | encodePathSegment => c ∈ codes "/;,?"
    | encodeUserPassword => c ∈ codes "@/?:"
    | encodeQueryComponent => true
    | encodeFragment => false
    | encodeHost => true
    | encodeZone => true
  else if mode = encodeFragment ∧ c ∈ codes "!()*" then false
  -- Everything else must be escaped.
  else true

/-- `unescape`: percent-decode `s`, checking what `mode` demands. `none` is an
`EscapeError` or an `InvalidHostError`. -/
def unescape (mode : encoding) : Str → Option Bytes
  | [] => some []
  | c :: rest =>
    if c = '%' then
      match rest with
      | h :: l :: rest2 =>
        if !ishex h || !ishex l then none
        -- in the host component %-encoding can only be used for non-ASCII
        -- bytes, and for %25 in IPv6 scoped-address literals
        else if mode = encodeHost ∧ unhex h < 8 ∧ ¬ (h = '2' ∧ l = '5') then none
        else if mode = encodeZone ∧ ¬ (h = '2' ∧ l = '5') ∧ unhex h * 16 + unhex l ≠ ' '.toNat
            ∧ shouldEscape (unhex h * 16 + unhex l) encodeHost then none
        else (unescape mode rest2).map (fun t => (unhex h * 16 + unhex l) :: t)
      | _ => none
    else if c = '+' ∧ mode = encodeQueryComponent then
      (unescape mode rest).map (fun t => ' '.toNat :: t)
    else if (mode = encodeHost ∨ mode = encodeZone) ∧ c.toNat < 0x80
        ∧ shouldEscape c.toNat encodeHost then none
    else (unescape mode rest).map (fun t => utf8EncodeChar c ++ t)

/-- One digit of `upperhex`. -/
def upperhex (n : Nat) : Char := ("0123456789ABCDEF".toList).getD n '0'

/-- `escape`: percent-encode the bytes that `mode` requires to be escaped. -/
def escape (mode : encoding) (s : Bytes) : Str :=
  s.flatMap (fun c =>
    if shouldEscape c mode then
      if c = ' '.toNat ∧ mode = encodeQueryComponent then ['+']
      else ['%', upperhex (c / 16 % 16), upperhex (c % 16)]
    else [Char.ofNat c])

/-- `validEncoded`: whether `s` is a valid encoded path or fragment according
to `mode`; it does not check that every `%` starts a well-formed escape. -/
def validEncoded (mode : encoding) (s : Str) : Bool :=
  s.all (fun c =>
    c.toNat ∈ codes "!$&'()*+,;=:@" || c.toNat ∈ codes "[]" || c = '%'
      || !shouldEscape c.toNat mode)

/-- `stringContainsCTLByte`. -/
def stringContainsCTLByte (s : Str) : Bool :=
  s.any (fun c => c.toNat < ' '.toNat || c.toNat = 0x7f)

/-- The `Userinfo` of a URL: user name and optional password, decoded. -/
structure Userinfo where
  username : Bytes
  password : Bytes
  passwordSet : Bool
  deriving DecidableEq, Repr

/-- The `URL` structure of `net/url`. `Host`, `Path` and `Fragment` hold the
decoded form; `RawPath` and `RawFragment` are the encoding hints. -/
structure URL where
  Scheme : Str
  Opaque : Str
  User : Option Userinfo
  Host : Bytes
  Path : Bytes
  RawPath : Str
  OmitHost : Bool
  ForceQuery : Bool
  RawQuery : Str
  Fragment : Bytes
  RawFragment : Str
  deriving DecidableEq, Repr

/-- The zero `URL` (`new(URL)`). -/
def URL.zero : URL :=
  { Scheme := [], Opaque := [], User := none, Host := [], Path := [], RawPath := [],
    OmitHost := false, ForceQuery := false, RawQuery := [], Fragment := [], RawFragment := [] }

/-- Whether `c` may appear in a scheme: 0 for no, 1 for a letter, 2 for a digit
or one of `+ - .` (allowed anywhere but first). -/
def schemeClass (c : Char) : Nat :=
  if ('a'.toNat ≤ c.toNat ∧ c.toNat ≤ 'z'.toNat) ∨ ('A'.toNat ≤ c.toNat ∧ c.toNat ≤ 'Z'.toNat) then 1
  else if ('0'.toNat ≤ c.toNat ∧ c.toNat ≤ '9'.toNat) ∨ c = '+' ∨ c = '-' ∨ c = '.' then 2
  else 0

/-- The loop of `getScheme` from index `i` on; `seen` is `rawURL[:i]` in
reverse and `rawURL` the whole text. -/
def getSchemeLoop (rawURL : Str) : Str → Str → Option (Str × Str)
  | [], _ => some ([], rawURL)
  | c :: rest, seen =>
    if schemeClass c = 1 then getSchemeLoop rawURL rest (c :: seen)
    else if schemeClass c = 2 then
      if seen = [] then some ([], rawURL) else getSchemeLoop rawURL rest (c :: seen)
    else if c = ':' then
      if seen = [] then none  -- missing protocol scheme
      else some (seen.reverse, rest)
    else some ([], rawURL)

/-- `getScheme`: split a leading `scheme:` off `rawURL`, if there is one. -/
def getScheme (rawURL : Str) : Option (Str × Str) := getSchemeLoop rawURL rawURL []

/-- `validOptionalPort`: `port` is empty or a colon followed by digits. -/
def validOptionalPort (port : Str) : Bool :=
  match port with
  | [] => true
  | c :: digits => c = ':' && digits.all (fun b => '0'.toNat ≤ b.toNat && b.toNat ≤ '9'.toNat)

/-- `parseHost`: the host, checked and decoded. -/
def parseHost (host : Str) : Option Bytes :=
  if HasPrefix host ['['] then
    -- an IP-literal, possibly with a port and a zone
    match cutLast host ']' with
    | none => none  -- missing ']' in host
    | some (beforeBracket, fromBracket) =>
      if !validOptionalPort (fromBracket.drop 1) then none
      else
        match Index "%25".toList beforeBracket with
        | some zone =>
          (unescape encodeHost (host.take zone)).bind (fun host1 =>
          (unescape encodeZone ((host.take beforeBracket.length).drop zone)).bind (fun host2 =>
          (unescape encodeHost (host.drop beforeBracket.length)).bind (fun host3 =>
          some (host1 ++ host2 ++ host3))))
        | none => unescape encodeHost host
  else
    match cutLast host ':' with
    | some (_, colonPort) =>
      if !validOptionalPort colonPort then none else unescape encodeHost host
    | none => unescape encodeHost host

/-- `validUserinfo`. -/
def validUserinfo (s : Str) : Bool :=
  s.all (fun r => isAlnum r.toNat || r.toNat ∈ codes "-._:~!$&'()*+,;=%@")

/-- `parseAuthority`: user information and host of an authority. -/
def parseAuthority (authority : Str) : Option (Option Userinfo × Bytes) :=
  match cutLast authority '@' with
  | none => (parseHost authority).map (fun host => (none, host))
  | some (userinfo, atHost) =>
    (parseHost (atHost.drop 1)).bind (fun host =>
      if !validUserinfo userinfo then none
      else if ':' ∉ userinfo then
        (unescape encodeUserPassword userinfo).map (fun u =>
          (some { username := u, password := [], passwordSet := false }, host))
      else
        (unescape encodeUserPassword (Cut userinfo ':').1).bind (fun username =>
        (unescape encodeUserPassword (Cut userinfo ':').2).map (fun password =>
          (some { username := username, password := password, passwordSet := true }, host))))

/-- `URL.setPath`: set `Path` and, when the default encoding of `Path`
differs from `p`, `RawPath`. -/
def URL.setPath (u : URL) (p : Str) : Option URL :=
  (unescape encodePath p).map (fun path =>
    { u with Path := path, RawPath := if p = escape encodePath path then [] else p })

/-- `URL.setFragment`. -/
def URL.setFragment (u : URL) (f : Str) : Option URL :=
  (unescape encodeFragment f).map (fun frag =>
    { u with Fragment := frag, RawFragment := if f = escape encodeFragment frag then [] else f })

/-- The unexported `parse` with `viaRequest = false`: parse a URL without its
fragment. -/
def parseNoFragment (rawURL : Str) : Option URL :=
  if stringContainsCTLByte rawURL then none
  else if rawURL = ['*'] then some { URL.zero with Path := ['*'.toNat] }
  else
    match getScheme rawURL with
    | none => none
    | some (scheme, rest0) =>
      let url0 : URL := { URL.zero with Scheme := ToLower scheme }
      let forceQuery : Bool := HasSuffix rest0 ['?'] && rest0.count '?' = 1
      let rest1 : Str := if forceQuery then rest0.take (rest0.length - 1) else (Cut rest0 '?').1
      let url1 : URL :=
        if forceQuery then { url0 with ForceQuery := true }
        else { url0 with RawQuery := (Cut rest0 '?').2 }
      if !HasPrefix rest1 ['/'] ∧ url1.Scheme ≠ [] then
        -- rootless paths are opaque
        some { url1 with Opaque := rest1 }
      else if !HasPrefix rest1 ['/'] ∧ ':' ∈ (Cut rest1 '/').1 then
        none  -- first path segment in URL cannot contain colon
      else if (url1.Scheme ≠ [] ∨ !HasPrefix rest1 "///".toList) ∧ HasPrefix rest1 "//".toList then
        let afterSlashes := rest1.drop 2
        let authority := afterSlashes.takeWhile (fun c => c != '/')
        let rest2 := afterSlashes.dropWhile (fun c => c != '/')
        match parseAuthority authority with
        | none => none
        | some (user, host) => URL.setPath { url1 with User := user, Host := host } rest2
      else if url1.Scheme ≠ [] ∧ HasPrefix rest1 ['/'] then
        URL.setPath { url1 with OmitHost := true } rest1
      else URL.setPath url1 rest1

/-- `url.Parse`: cut off the fragment, parse the rest, then set the fragment. -/
def Parse (rawURL : Str) : Option URL :=
  match parseNoFragment (Cut rawURL '#').1 with
  | none => none
  | some url => if (Cut rawURL '#').2 = [] then some url else URL.setFragment url (Cut rawURL '#').2

/-- `URL.EscapedPath`. -/
def URL.EscapedPath (u : URL) : Str :=
  if u.RawPath ≠ [] ∧ validEncoded encodePath u.RawPath
      ∧ unescape encodePath u.RawPath = some u.Path then u.RawPath
  else if u.Path = ['*'.toNat] then ['*']
  else escape encodePath u.Path

/-- `URL.EscapedFragment`. -/
def URL.EscapedFragment (u : URL) : Str :=
  if u.RawFragment ≠ [] ∧ validEncoded encodeFragment u.RawFragment
      ∧ unescape encodeFragment u.RawFragment = some u.Fragment then u.RawFragment
  else escape encodeFragment u.Fragment

/-- `Userinfo.String`. -/
def Userinfo.String (u : Userinfo) : Str :=
  escape encodeUserPassword u.username
    ++ (if u.passwordSet then ':' :: escape encodeUserPassword u.password else [])

/-- The part of `URL.String` that writes authority and path (the `else` branch
of `u.Opaque != ""`); `buf` is what has been written so far. -/
def URL.stringHier (u : URL) (buf : Str) : Str :=
  let buf1 :=
    if u.Scheme ≠ [] ∨ u.Host ≠ [] ∨ u.User.isSome then
      if u.OmitHost ∧ u.Host = [] ∧ u.User.isNone then buf
      else
        let b1 := if u.Host ≠ [] ∨ u.Path ≠ [] ∨ u.User.isSome then buf ++ "//".toList else buf
        let b2 := match u.User with
          | some ui => b1 ++ ui.String ++ ['@']
          | none => b1
        if u.Host ≠ [] then b2 ++ escape encodeHost u.Host else b2
    else buf
  let path := u.EscapedPath
  let buf2 := if path ≠ [] ∧ path.head? ≠ some '/' ∧ u.Host ≠ [] then buf1 ++ ['/'] else buf1
  let buf3 := if buf2 = [] ∧ ':' ∈ (Cut path '/').1 then buf2 ++ "./".toList else buf2
  buf3 ++ path

/-- `URL.String`: reassemble the URL into a valid URL string. -/
def URL.String (u : URL) : Str :=
  let buf0 := if u.Scheme ≠ [] then u.Scheme ++ [':'] else []
  let buf1 := if u.Opaque ≠ [] then buf0 ++ u.Opaque else u.stringHier buf0
  let buf2 := if u.ForceQuery ∨ u.RawQuery ≠ [] then buf1 ++ '?' :: u.RawQuery else buf1
  if u.Fragment ≠ [] then buf2 ++ '#' :: u.EscapedFragment else buf2

/-! ## Package `fsthttp`: headers, requests, responses -/

/-- `fsthttp.Header`: a map from canonical header names to their values, held
as an association list (the first entry of a name is the map's entry). -/
abbrev Header := List (Str × List Str)

/-- The bytes allowed in a header field name (an RFC 7230 token). -/
def validHeaderFieldByte (c : Char) : Bool :=
  isAlnum c.toNat || c.toNat ∈ codes "!#$%&'*+-.^_`|~"

/-- The canonicalising loop of `CanonicalHeaderKey`: upper case for the first
letter and for every letter after a dash, lower case for the others. -/
def canonicalLoop : Str → Bool → Str
  | [], _ => []
  | c :: cs, upper =>
    let c1 :=
      if upper ∧ 'a'.toNat ≤ c.toNat ∧ c.toNat ≤ 'z'.toNat then Char.ofNat (c.toNat - 32)
      else if ¬ upper ∧ 'A'.toNat ≤ c.toNat ∧ c.toNat ≤ 'Z'.toNat then Char.ofNat (c.toNat + 32)
      else c
    c1 :: canonicalLoop cs (c1 = '-')

/-- `CanonicalHeaderKey`: the canonical form of a header name; a name that is
not a token is returned unchanged. -/
def CanonicalHeaderKey (s : Str) : Str :=
  if s.all validHeaderFieldByte then canonicalLoop s true else s

/-- `Header.Values`: all values of the header `key`. -/
def Header.Values (h : Header) (key : Str) : List Str :=
  (h.lookup (CanonicalHeaderKey key)).getD []

/-- `Header.Get`: the first value of the header `key`, or the empty string. -/
def Header.Get (h : Header) (key : Str) : Str := (h.Values key).headD []

/-- Append `value` to the entry of the canonical name `k`, creating it at the
end when the map has none. -/
def Header.addCanonical (k value : Str) : Header → Header
  | [] => [(k, [value])]
  | (k1, vs) :: rest =>
    if k1 = k then (k1, vs ++ [value]) :: rest else (k1, vs) :: Header.addCanonical k value rest

/-- `Header.Add`: add a value to the header `key`. -/
def Header.Add (h : Header) (key value : Str) : Header :=
  Header.addCanonical (CanonicalHeaderKey key) value h

/-- `Header.Del`: delete the header `key`. -/
def Header.Del (h : Header) (key : Str) : Header :=
  h.filter (fun e => e.1 ≠ CanonicalHeaderKey key)

/-- `Header.Reset`: delete all existing headers of `h`, then add all of the
headers in `hs`. -/
def Header.Reset (_h hs : Header) : Header := hs

/-- The fields of the request's `URL` that the handler reads. -/
structure RequestURL where
  Scheme : Str
  Host : Str
  Path : Str
  RawQuery : Str
  deriving DecidableEq, Repr

/-- The inbound `fsthttp.Request`, as far as the handler uses it. -/
structure Request where
  Method : Str
  URL : RequestURL
  Header : Header
  deriving DecidableEq, Repr

/-- An `fsthttp.Response` from the backend. -/
structure Response where
  StatusCode : Nat
  Header : Header
  Body : Str
  deriving DecidableEq, Repr

/-- What `Request.Send` returns: an error (and a nil response), or a response. -/
inductive SendResult
  | error (msg : Str)
  | ok (resp : Response)
  deriving DecidableEq, Repr

/-- The backend named "origin": the result of the `n`-th `Send` of the
invocation (0 is the primary request, `k` the `k`-th follow-up). -/
abbrev Backend := Nat → SendResult

/-- The observable effects of one invocation, in program order. -/
inductive Event
  /-- A print to the log, named by its source line in `main.go`. -/
  | print (line : Nat)
  /-- `w.WriteHeader(code)`: the status goes out with the headers `w.Header()`
  holds at that moment. -/
  | writeHeader (code : Nat) (header : Header)
  /-- Body text written to the client. -/
  | write (data : Str)
  /-- `w.Close()`: the client response is complete. -/
  | close
  /-- `r.Send(ctx, "origin")`: the primary request, with its headers. -/
  | sendPrimary (header : Header)
  /-- `preReq.Send(ctx, "origin")`: a follow-up request for `url`. -/
  | sendFollowUp (url : URL) (header : Header)
  /-- `io.Copy(io.Discard, resp.Body)` and `resp.Body.Close()`. -/
  | discardBody
  deriving DecidableEq, Repr

/-- How the handler function ends. -/
inductive Outcome
  /-- The handler returned. -/
  | returned
  /-- The handler dereferenced a nil pointer: the invocation is aborted. -/
  | panicked
  deriving DecidableEq, Repr

/-- `fsthttp.StatusMethodNotAllowed`. -/
def StatusMethodNotAllowed : Nat := 405
/-- `fsthttp.StatusBadGateway`. -/
def StatusBadGateway : Nat := 502
/-- `fsthttp.StatusOK`. -/
def StatusOK : Nat := 200

/-- The name of the header the edge sends to enable prefetch. -/
def prefetchEnabledHeader : Str := "CDN-Origin-Assist-Prefetch-Enabled".toList
/-- The name of the header in which the origin lists what to prefetch. -/
def prefetchPathHeader : Str := "CDN-Origin-Assist-Prefetch-Path".toList

/-! ## `main.go` -/

/-- Lines 90-98: the URL text built for one hint `object`. -/
def newPath (r : Request) (object : Str) : Str :=
  if HasPrefix object ['/'] then
    -- Absolute path
    r.URL.Scheme ++ "://".toList ++ r.URL.Host ++ object
  else
    -- Relative path - resolve from current directory
    r.URL.Scheme ++ "://".toList ++ r.URL.Host ++ Dir r.URL.Path ++ ['/'] ++ object

/-- Lines 100-106: the parsed URL of a hint with the query of the original
request; `none` when `url.Parse` fails. -/
def resolveURL (r : Request) (object : Str) : Option URL :=
  (Parse (newPath r object)).map (fun newURL => { newURL with RawQuery := r.URL.RawQuery })

/-- Lines 90-108: the text appended to `prefetchList` for one hint. -/
def resolve (r : Request) (object : Str) : Option Str :=
  (resolveURL r object).map URL.String

/-- Lines 84-109, the body of the inner loop: one comma-separated piece of a
header value. The state is `prefetchList` and the prints made so far. -/
def objectStep (r : Request) (acc : List Str × List Event) (piece : Str) : List Str × List Event :=
  let object := TrimSpace piece
  if object = [] then acc  -- continue
  else
    match Parse (newPath r object) with
    | none => (acc.1, acc.2 ++ [Event.print 103])  -- continue
    | some newURL => (acc.1 ++ [URL.String { newURL with RawQuery := r.URL.RawQuery }], acc.2)

/-- Lines 81-110: both loops over the values of the prefetch header. -/
def buildPrefetchList (r : Request) (prefetchObjects : List Str) : List Str × List Event :=
  prefetchObjects.foldl
    (fun acc headerValue => (Split ',' headerValue).foldl (objectStep r) acc) ([], [])

/-- The hints that reach line 90 (the values `object` takes past the
`object == ""` test), in the order the loops of lines 81-110 meet them. -/
def rawHints (prefetchObjects : List Str) : List Str :=
  prefetchObjects.foldl
    (fun acc headerValue => (Split ',' headerValue).foldl
      (fun acc piece => if TrimSpace piece = [] then acc else acc ++ [TrimSpace piece]) acc) []

/-- Lines 115-154: the follow-up loop over what is left of `prefetchList`.
`fetched` is the counter of line 114 and `calls` the number of `Send`s made so
far in the invocation; `r` is the request that is cloned. -/
def fetchLoop (DEBUG : Bool) (origin : Backend) (r : Request) :
    List Str → Nat → Nat → List Event × Outcome
  | [], _, _ => ([], Outcome.returned)
  | object :: rest, fetched, calls =>
    let ev118 := if DEBUG then [Event.print 118] else []
    if fetched > 24 then
      -- terminate gracefully: break
      (ev118 ++ [Event.print 124], Outcome.returned)
    else
      match Parse object with
      | none =>
        let tail := fetchLoop DEBUG origin r rest fetched calls
        (ev118 ++ tail.1, tail.2)
      | some newURL =>
        let sent := [Event.sendFollowUp newURL r.Header]
        match origin calls with
        | SendResult.ok resp =>
          let drained := if resp.StatusCode = StatusOK then [Event.discardBody] else []
          let ev151 := if DEBUG then [Event.print 151] else []
          let tail := fetchLoop DEBUG origin r rest (fetched + 1) (calls + 1)
          (ev118 ++ sent ++ drained ++ ev151 ++ tail.1, tail.2)
        | SendResult.error _ =>
          if DEBUG then
            -- line 151 reads resp.StatusCode of the nil response
            (ev118 ++ sent, Outcome.panicked)
          else
            let tail := fetchLoop DEBUG origin r rest (fetched + 1) (calls + 1)
            (ev118 ++ sent ++ tail.1, tail.2)

/-- The handler of `main`: one invocation for the inbound request `r0`, with
`origin` answering the requests sent to the backend. -/
def handler (origin : Backend) (r0 : Request) : List Event × Outcome :=
  let DEBUG : Bool := r0.Header.Get "FASTLY-DEBUG".toList ≠ []
  let ev36 := if DEBUG then [Event.print 36] else []
  -- Filter requests that have unexpected methods.
  if r0.Method ≠ "GET".toList then
    (ev36 ++ [Event.writeHeader StatusMethodNotAllowed [],
              Event.write "This method is not allowed\n".toList], Outcome.returned)
  else
    -- Enable origin pre-fetch
    let r : Request := { r0 with Header := r0.Header.Add prefetchEnabledHeader ['1'] }
    -- Forward the request to backend
    match origin 0 with
    | SendResult.error msg =>
      (ev36 ++ [Event.sendPrimary r.Header, Event.writeHeader StatusBadGateway [],
                Event.write (msg ++ ['\n'])], Outcome.returned)
    | SendResult.ok resp =>
      let wHeader0 := Header.Reset [] resp.Header
      let wHeader :=
        if !DEBUG then (wHeader0.Del prefetchEnabledHeader).Del prefetchPathHeader
        else wHeader0
      let relay := [Event.sendPrimary r.Header, Event.writeHeader resp.StatusCode wHeader,
                    Event.write resp.Body, Event.close]
      -- Did we get a response header with instructions to prefetch ?
      let prefetchObjects := resp.Header.Values prefetchPathHeader
      let built : List Str × List Event :=
        if prefetchObjects.length > 0 then
          let b := buildPrefetchList r prefetchObjects
          (b.1, (if DEBUG then [Event.print 78] else []) ++ b.2)
        else ([], [])
      let fetches := fetchLoop DEBUG origin r built.1 0 1
      (ev36 ++ relay ++ built.2 ++ fetches.1, fetches.2)

/-! ## Observations on a trace -/

/-- A follow-up request to the backend. -/
def Event.isFollowUp : Event → Bool
  | Event.sendFollowUp _ _ => true
  | _ => false

/-- A request to the backend, primary or follow-up. -/
def Event.isSend : Event → Bool
  | Event.sendPrimary _ => true
  | Event.sendFollowUp _ _ => true
  | _ => false

/-- An effect the client sees: status and headers, body text, end of response. -/
def Event.isClient : Event → Bool
  | Event.writeHeader _ _ => true
  | Event.write _ => true
  | Event.close => true
  | _ => false

/-- A print to the log. -/
def Event.isPrint : Event → Bool
  | Event.print _ => true
  | _ => false

/-- The follow-up requests of a trace, in order. -/
def followUps (t : List Event) : List Event := t.filter Event.isFollowUp

/-- What the client receives, in order. -/
def clientView (t : List Event) : List Event := t.filter Event.isClient

/-- Whether diagnostics are on for a request (lines 27-32). -/
def debugOn (r : Request) : Bool := r.Header.Get "FASTLY-DEBUG".toList ≠ []

/-- The request the handler sends and clones: the inbound one with the
prefetch-enable header added (line 48). -/
def withPrefetchEnabled (r : Request) : Request :=
  { r with Header := r.Header.Add prefetchEnabledHeader ['1'] }

/-- The `prefetchList` the handler builds from the primary response `resp`. -/
def prefetchListOf (r : Request) (resp : Response) : List Str :=
  (buildPrefetchList (withPrefetchEnabled r) (resp.Header.Values prefetchPathHeader)).1


/-! ## Well-formed requests -/

/-- A scheme as `url.Parse` returns one: a lower-case letter followed by
lower-case letters, digits, `+`, `-` or `.`. -/
def validScheme (s : Str) : Bool :=
  (match s with
    | [] => false
    | c :: _ => 'a'.toNat ≤ c.toNat && c.toNat ≤ 'z'.toNat)
  && s.all (fun c => schemeClass c ≠ 0 && !('A'.toNat ≤ c.toNat && c.toNat ≤ 'Z'.toNat))

/-- A host written with the ASCII characters that need no escaping in a host:
letters, digits, `-`, `.`, `_`, `~`, the sub-delimiters, and `:`, `[`, `]` for
ports and IP literals. -/
def validHost (h : Str) : Bool :=
  h.all (fun c => c.toNat < 0x80 && !shouldEscape c.toNat encodeHost)

/-! ## The three parts of a URL text after its authority -/

/-- Whether `parse` sets `ForceQuery` for the text `pre` (a URL without its
fragment): it ends in its only `?`. -/
def queryForced (pre : Str) : Bool := HasSuffix pre ['?'] && pre.count '?' = 1

/-- The part of `pre` that `parse` takes as the path. -/
def pathPart (pre : Str) : Str :=
  if queryForced pre then pre.take (pre.length - 1) else (Cut pre '?').1

/-- The part of `pre` that `parse` takes as the query. -/
def queryPart (pre : Str) : Str :=
  if queryForced pre then [] else (Cut pre '?').2

/-- A raw query as `url.Parse` returns one: no `#` and no control byte. -/
def validQuery (q : Str) : Bool :=
  q.all (fun c => c != '#' && !(c.toNat < ' '.toNat || c.toNat = 0x7f))

/-- The shape of a URL parsed from a text `scheme://host/...`: the scheme and
the host are the ones written, there is no user information and no opaque
part, and the path is rooted. -/
def HierURL (sch h : Str) (u : URL) : Prop :=
  u.Scheme = sch ∧ u.Opaque = [] ∧ u.User = none ∧ u.Host = h.map Char.toNat
    ∧ u.OmitHost = false ∧ u.Path.head? = some '/'.toNat
    ∧ (u.RawPath = [] ∨ u.RawPath.head? = some '/')

/-! ## Concrete inputs used in examples -/

/-- A request `GET https://example.com/videos/main.m3u8?token=abc`. -/
def exampleRequest : Request :=
  { Method := "GET".toList,
    URL := { Scheme := "https".toList, Host := "example.com".toList,
             Path := "/videos/main.m3u8".toList, RawQuery := "token=abc".toList },
    Header := [] }

/-- The same request with the header `Fastly-Debug: 1`. -/
def exampleDebugRequest : Request :=
  { exampleRequest with Header := [("Fastly-Debug".toList, [['1']])] }

/-- A `200` response whose prefetch header has the single value `hints`, next
to a `Content-Type` header. -/
def exampleResponse (hints : Str) : Response :=
  { StatusCode := 200,
    Header := [("Content-Type".toList, ["application/vnd.apple.mpegurl".toList]),
               ("Cdn-Origin-Assist-Prefetch-Path".toList, [hints])],
    Body := "#EXTM3U\n".toList }

/-- A backend that answers the primary request with `exampleResponse hints`
and every follow-up with an empty `200`. -/
def exampleBackend (hints : Str) : Backend := fun n =>
  if n = 0 then SendResult.ok (exampleResponse hints)
  else SendResult.ok { StatusCode := 200, Header := [], Body := [] }

/-- As `exampleBackend`, but the first follow-up fails in transport. -/
def failingBackend (hints : Str) : Backend := fun n =>
  if n = 0 then SendResult.ok (exampleResponse hints)
  else if n = 1 then SendResult.error "connection reset".toList
  else SendResult.ok { StatusCode := 200, Header := [], Body := [] }

/-- A header value listing `n` hints `/a`. -/
def manyHints (n : Nat) : Str := List.intercalate [','] (List.replicate n "/a".toList)

/-! ## Lemmas: the follow-up loop -/

theorem objectStep_prints (r : Request) (acc : List Str × List Event) (piece : Str)
    (h : ∀ e ∈ acc.2, e.isPrint = true) : ∀ e ∈ (objectStep r acc piece).2, e.isPrint = true := by
  unfold objectStep
  by_cases h1 : TrimSpace piece = []
  · simpa [h1] using h
  · simp only [h1, if_false]
    cases Parse (newPath r (TrimSpace piece)) with
    | none =>
      intro e he
      simp only [List.mem_append, List.mem_singleton] at he
      rcases he with he | he
      · exact h e he
      · subst he; rfl
    | some u => simpa using h

theorem foldl_objectStep_prints (r : Request) (pieces : List Str) (acc : List Str × List Event)
    (h : ∀ e ∈ acc.2, e.isPrint = true) :
    ∀ e ∈ (pieces.foldl (objectStep r) acc).2, e.isPrint = true := by
  induction pieces generalizing acc with
  | nil => simpa using h
  | cons p ps ih => exact ih _ (objectStep_prints r acc p h)

theorem buildPrefetchList_prints_aux (r : Request) (vals : List Str) (acc : List Str × List Event)
    (h : ∀ e ∈ acc.2, e.isPrint = true) :
    ∀ e ∈ (vals.foldl (fun acc headerValue => (Split ',' headerValue).foldl (objectStep r) acc) acc).2,
      e.isPrint = true := by
  induction vals generalizing acc with
  | nil => simpa using h
  | cons v vs ih => exact ih _ (foldl_objectStep_prints r _ acc h)

theorem buildPrefetchList_prints (r : Request) (vals : List Str) :
    ∀ e ∈ (buildPrefetchList r vals).2, e.isPrint = true :=
  buildPrefetchList_prints_aux r vals ([], []) (by simp)

theorem filter_eq_nil_of_prints (p : Event → Bool) (hp : ∀ e, e.isPrint = true → p e = false)
    (t : List Event) (h : ∀ e ∈ t, e.isPrint = true) : t.filter p = [] := by
  rw [List.filter_eq_nil_iff]
  intro e he
  simp [hp e (h e he)]

theorem isFollowUp_of_isPrint (e : Event) (h : e.isPrint = true) : e.isFollowUp = false := by
  cases e <;> simp_all [Event.isPrint, Event.isFollowUp]

theorem isClient_of_isPrint (e : Event) (h : e.isPrint = true) : e.isClient = false := by
  cases e <;> simp_all [Event.isPrint, Event.isClient]

theorem isSend_of_isPrint (e : Event) (h : e.isPrint = true) : e.isSend = false := by
  cases e <;> simp_all [Event.isPrint, Event.isSend]

/-- The follow-up loop never writes to the client. -/
theorem fetchLoop_no_client (DEBUG : Bool) (origin : Backend) (r : Request) (l : List Str)
    (fetched calls : Nat) : clientView (fetchLoop DEBUG origin r l fetched calls).1 = [] := by
  induction l generalizing fetched calls with
  | nil => simp [fetchLoop, clientView]
  | cons object rest ih =>
    unfold fetchLoop
    by_cases hf : fetched > 24
    · cases DEBUG <;> simp [hf, clientView, Event.isClient]
    · simp only [hf, if_false]
      cases hP : Parse object with
      | none =>
        have := ih fetched calls
        cases DEBUG <;> simp_all [clientView, Event.isClient]
      | some u =>
        cases hO : origin calls with
        | ok resp =>
          have := ih (fetched + 1) (calls + 1)
          by_cases hs : resp.StatusCode = StatusOK <;>
            cases DEBUG <;> simp_all [clientView, Event.isClient]
        | error msg =>
          have := ih (fetched + 1) (calls + 1)
          cases DEBUG <;> simp_all [clientView, Event.isClient]

/-- The budget of the follow-up loop: when every URL of the list parses and no
send fails while diagnostics are on, the loop, entered with counter `fetched`,
sends `min n (25 - fetched)` requests and returns. -/
theorem fetchLoop_count (DEBUG : Bool) (origin : Backend) (r : Request) (l : List Str)
    (fetched calls : Nat)
    (hParse : ∀ s ∈ l, Parse s ≠ none)
    (hOk : DEBUG = false ∨ ∀ k, ∃ resp, origin k = SendResult.ok resp) :
    (followUps (fetchLoop DEBUG origin r l fetched calls).1).length = min l.length (25 - fetched)
      ∧ (fetchLoop DEBUG origin r l fetched calls).2 = Outcome.returned := by
  induction l generalizing fetched calls with
  | nil => simp [fetchLoop, followUps]
  | cons object rest ih =>
    have ihr := fun f c => ih f c (fun s hs => hParse s (List.mem_cons_of_mem _ hs))
    unfold fetchLoop
    by_cases hf : fetched > 24
    · have h0 : 25 - fetched = 0 := by omega
      cases DEBUG <;> simp [hf, followUps, Event.isFollowUp, h0]
    · simp only [hf, if_false]
      cases hP : Parse object with
      | none => exact absurd hP (hParse object (List.mem_cons_self _ _))
      | some u =>
        have hm : min (rest.length + 1) (25 - fetched) = min rest.length (25 - (fetched + 1)) + 1 := by
          omega
        cases hO : origin calls with
        | ok resp =>
          obtain ⟨h1, h2⟩ := ihr (fetched + 1) (calls + 1)
          refine ⟨?_, by simpa using h2⟩
          simp only [List.length_cons, hm, ← h1]
          by_cases hs : resp.StatusCode = StatusOK <;>
            cases DEBUG <;> simp [followUps, Event.isFollowUp, hs, List.filter_cons]
        | error msg =>
          obtain ⟨h1, h2⟩ := ihr (fetched + 1) (calls + 1)
          rcases hOk with hD | hAll
          · subst hD
            refine ⟨?_, by simpa using h2⟩
            simp only [List.length_cons, hm, ← h1]
            simp [followUps, Event.isFollowUp, List.filter_cons]
          · obtain ⟨resp, hr⟩ := hAll calls
            rw [hr] at hO; cases hO

/-! ## Lemmas: the handler as a whole -/

/-- The headers the client receives for a primary response with headers `h`. -/
theorem handler_get_ok (origin : Backend) (r : Request) (resp : Response)
    (hGET : r.Method = "GET".toList) (h0 : origin 0 = SendResult.ok resp) :
    ∃ prints : List Event, (∀ e ∈ prints, e.isPrint = true) ∧
      handler origin r =
        ((if debugOn r then [Event.print 36] else []) ++
          [Event.sendPrimary (withPrefetchEnabled r).Header,
           Event.writeHeader resp.StatusCode
             (if debugOn r then resp.Header
              else (resp.Header.Del prefetchEnabledHeader).Del prefetchPathHeader),
           Event.write resp.Body, Event.close] ++ prints ++
          (fetchLoop (debugOn r) origin (withPrefetchEnabled r) (prefetchListOf r resp) 0 1).1,
         (fetchLoop (debugOn r) origin (withPrefetchEnabled r) (prefetchListOf r resp) 0 1).2) := by
  by_cases hv : (resp.Header.Values prefetchPathHeader).length > 0
  · refine ⟨(if debugOn r then [Event.print 78] else []) ++
      (buildPrefetchList (withPrefetchEnabled r) (resp.Header.Values prefetchPathHeader)).2, ?_, ?_⟩
    · intro e he
      rw [List.mem_append] at he
      rcases he with he | he
      · by_cases hd : debugOn r = true
        · simp [hd] at he; subst he; rfl
        · simp [hd] at he
      · exact buildPrefetchList_prints _ _ e he
    · by_cases hd : debugOn r = true <;>
        simp [handler, hGET, h0, hv, prefetchListOf, withPrefetchEnabled, Header.Reset,
          debugOn] at hd ⊢
  · refine ⟨[], by simp, ?_⟩
    have hnil : resp.Header.Values prefetchPathHeader = [] := by
      cases h : resp.Header.Values prefetchPathHeader with
      | nil => rfl
      | cons a b => simp [h] at hv
    by_cases hd : debugOn r = true <;>
      simp [handler, hGET, h0, hnil, prefetchListOf, withPrefetchEnabled, Header.Reset,
        debugOn, buildPrefetchList] at hd ⊢

theorem Header.values_del (h : Header) (key k : Str) :
    (h.Del key).Values k =
      if CanonicalHeaderKey k = CanonicalHeaderKey key then [] else h.Values k := by
  unfold Header.Del Header.Values
  induction h with
  | nil => simp [List.lookup]
  | cons e rest ih =>
    obtain ⟨n, vs⟩ := e
    by_cases hn : n = CanonicalHeaderKey key
    · subst hn
      by_cases hk : CanonicalHeaderKey k = CanonicalHeaderKey key
      · simp [List.filter_cons, hk] at ih ⊢
        simpa [hk] using ih
      · have hk2 : ¬ (CanonicalHeaderKey k == CanonicalHeaderKey key) = true := by simpa using hk
        simp [List.filter_cons, hk, List.lookup, hk2] at ih ⊢
        simpa [hk] using ih
    · by_cases hkn : CanonicalHeaderKey k = n
      · subst hkn
        simp [List.filter_cons, hn, List.lookup]
      · have hk2 : (CanonicalHeaderKey k == n) = false := by simpa using hkn
        simp [List.filter_cons, hn, List.lookup, hk2]
        simpa using ih

theorem handler_not_get (origin : Backend) (r : Request) (h : r.Method ≠ "GET".toList) :
    handler origin r =
      ((if debugOn r then [Event.print 36] else []) ++
        [Event.writeHeader StatusMethodNotAllowed [],
         Event.write "This method is not allowed\n".toList], Outcome.returned) := by
  unfold handler
  exact if_pos h

theorem handler_get_error (origin : Backend) (r : Request) (msg : Str)
    (hGET : r.Method = "GET".toList) (h0 : origin 0 = SendResult.error msg) :
    handler origin r =
      ((if debugOn r then [Event.print 36] else []) ++
        [Event.sendPrimary (withPrefetchEnabled r).Header,
         Event.writeHeader StatusBadGateway [], Event.write (msg ++ ['\n'])],
       Outcome.returned) := by
  unfold handler
  rw [if_neg (not_not.mpr hGET)]
  simp only [h0]
  rfl

/-- In a trace `A ++ x :: y :: z :: B` whose first part holds no follow-up
request, a follow-up request stands after `z`. -/
theorem followUp_index (A B : List Event) (x y z e : Event) (i : Nat)
    (hA : ∀ a ∈ A, a.isFollowUp = false) (hx : x.isFollowUp = false)
    (hy : y.isFollowUp = false) (hz : z.isFollowUp = false)
    (hi : (A ++ x :: y :: z :: B)[i]? = some e) (he : e.isFollowUp = true) :
    A.length + 2 < i := by
  by_contra hcon
  have hle : i ≤ A.length + 2 := by omega
  by_cases h1 : i < A.length
  · rw [List.getElem?_append_left h1] at hi
    have hm : e ∈ A := List.getElem?_mem hi
    rw [hA e hm] at he
    exact Bool.noConfusion he
  · rw [List.getElem?_append_right (by omega)] at hi
    have hk : i - A.length = 0 ∨ i - A.length = 1 ∨ i - A.length = 2 := by omega
    rcases hk with hk | hk | hk <;> rw [hk] at hi <;> simp at hi <;> subst hi <;> simp_all

theorem getElem?_middle (A B : List Event) (x y z : Event) :
    (A ++ x :: y :: z :: B)[A.length]? = some x
      ∧ (A ++ x :: y :: z :: B)[A.length + 1]? = some y
      ∧ (A ++ x :: y :: z :: B)[A.length + 2]? = some z := by
  refine ⟨?_, ?_, ?_⟩ <;> rw [List.getElem?_append_right (by omega)] <;> simp

/-! ## Lemmas: splitting and trimming -/

theorem Split_cons (sep c : Char) (cs : Str) :
    Split sep (c :: cs) =
      if c = sep then [] :: Split sep cs
      else match Split sep cs with
        | [] => [[c]]
        | s :: ss => (c :: s) :: ss := by
  rfl

theorem Split_ne_nil (sep : Char) (s : Str) : Split sep s ≠ [] := by
  induction s with
  | nil => simp [Split]
  | cons c cs ih =>
    unfold Split
    by_cases h : c = sep
    · simp [h]
    · simp only [h, if_false]
      cases hS : Split sep cs with
      | nil => simp
      | cons a b => simp

theorem Split_intercalate (sep : Char) (s : Str) : List.intercalate [sep] (Split sep s) = s := by
  induction s with
  | nil => simp [Split, List.intercalate]
  | cons c cs ih =>
    unfold Split
    by_cases h : c = sep
    · subst h
      simp only [if_true]
      cases hS : Split c cs with
      | nil => exact absurd hS (Split_ne_nil _ _)
      | cons a b =>
        rw [hS] at ih
        simp only [List.intercalate, List.intersperse, List.flatten] at ih ⊢
        simp [ih]
    · simp only [h, if_false]
      cases hS : Split sep cs with
      | nil => exact absurd hS (Split_ne_nil _ _)
      | cons a b =>
        rw [hS] at ih
        cases b with
        | nil =>
          simp only [List.intercalate, List.intersperse, List.flatten] at ih ⊢
          simpa using ih
        | cons b1 b2 =>
          simp only [List.intercalate, List.intersperse, List.flatten] at ih ⊢
          simpa using ih

theorem Split_no_sep (sep : Char) (s : Str) : ∀ seg ∈ Split sep s, sep ∉ seg := by
  induction s with
  | nil => simp [Split]
  | cons c cs ih =>
    unfold Split
    by_cases h : c = sep
    · subst h
      intro seg hseg
      simp only [if_true, List.mem_cons] at hseg
      rcases hseg with hseg | hseg
      · subst hseg; simp
      · exact ih seg hseg
    · simp only [h, if_false]
      cases hS : Split sep cs with
      | nil => exact absurd hS (Split_ne_nil _ _)
      | cons a b =>
        rw [hS] at ih
        intro seg hseg
        simp only [List.mem_cons] at hseg
        rcases hseg with hseg | hseg
        · subst hseg
          have := ih a (List.mem_cons_self _ _)
          simp only [List.mem_cons, not_or]
          exact ⟨fun hc => h hc.symm, this⟩
        · exact ih seg (List.mem_cons_of_mem _ hseg)

theorem Split_single (sep : Char) (x : Str) (h : sep ∉ x) : Split sep x = [x] := by
  induction x with
  | nil => simp [Split]
  | cons c cs ih =>
    simp only [List.mem_cons, not_or] at h
    rw [Split_cons, if_neg (fun hc => h.1 hc.symm), ih h.2]

theorem Split_append_sep (sep : Char) (x rest : Str) (h : sep ∉ x) :
    Split sep (x ++ sep :: rest) = x :: Split sep rest := by
  induction x with
  | nil => simp [Split]
  | cons c cs ih =>
    simp only [List.mem_cons, not_or] at h
    simp only [List.cons_append]
    rw [Split_cons, if_neg (fun hc => h.1 hc.symm), ih h.2]

theorem intercalate_cons_cons (sep : Char) (x y : Str) (ys : List Str) :
    List.intercalate [sep] (x :: y :: ys) = x ++ sep :: List.intercalate [sep] (y :: ys) := by
  simp [List.intercalate, List.intersperse, List.flatten]

/-- Splitting a text built by joining comma-free pieces with commas gives the
pieces back. -/
theorem Split_of_intercalate (sep : Char) (x : Str) (xs : List Str)
    (h : ∀ seg ∈ x :: xs, sep ∉ seg) :
    Split sep (List.intercalate [sep] (x :: xs)) = x :: xs := by
  induction xs generalizing x with
  | nil =>
    have : List.intercalate [sep] [x] = x := by simp [List.intercalate, List.intersperse, List.flatten]
    rw [this]
    exact Split_single sep x (h x (List.mem_cons_self _ _))
  | cons y ys ih =>
    rw [intercalate_cons_cons, Split_append_sep sep x _ (h x (List.mem_cons_self _ _))]
    rw [ih y (fun seg hseg => h seg (List.mem_cons_of_mem _ hseg))]

theorem dropWhile_append_of_all {α : Type} (p : α → Bool) (l s : List α)
    (h : ∀ c ∈ l, p c = true) : (l ++ s).dropWhile p = s.dropWhile p := by
  induction l with
  | nil => rfl
  | cons c cs ih =>
    simp only [List.mem_cons, forall_eq_or_imp] at h
    simp [List.dropWhile_cons, h.1, ih h.2]

theorem dropWhile_append_of_stop {α : Type} (p : α → Bool) (s t : List α)
    (h : s.dropWhile p ≠ []) : (s ++ t).dropWhile p = s.dropWhile p ++ t := by
  induction s with
  | nil => simp at h
  | cons c cs ih =>
    by_cases hc : p c = true
    · simp only [List.cons_append, List.dropWhile_cons, hc, if_true] at h ⊢
      exact ih h
    · simp [List.dropWhile_cons, hc]

/-- White space around a text does not change what `TrimSpace` returns. -/
theorem TrimSpace_pad (l s r : Str) (hl : ∀ c ∈ l, isSpace c = true)
    (hr : ∀ c ∈ r, isSpace c = true) : TrimSpace (l ++ s ++ r) = TrimSpace s := by
  unfold TrimSpace
  rw [List.append_assoc, dropWhile_append_of_all isSpace l _ hl]
  by_cases hs : s.dropWhile isSpace = []
  · have hall : ∀ c ∈ s, isSpace c = true := by
      intro c hc
      by_contra hn
      have := List.dropWhile_eq_nil_iff.mp hs c hc
      exact hn this
    rw [dropWhile_append_of_all isSpace s _ hall, hs]
    have : r.dropWhile isSpace = [] := List.dropWhile_eq_nil_iff.mpr hr
    simp [this]
  · rw [dropWhile_append_of_stop isSpace s r hs, List.reverse_append,
      dropWhile_append_of_all isSpace r.reverse _ (fun c hc => hr c (List.mem_reverse.mp hc))]

/-- What `TrimSpace` returns neither starts nor ends with white space, and the
text it was given is that result between two runs of white space. -/
theorem TrimSpace_spec (s : Str) :
    ∃ a b : Str, s = a ++ TrimSpace s ++ b
      ∧ (∀ c ∈ a, isSpace c = true) ∧ (∀ c ∈ b, isSpace c = true)
      ∧ (∀ c, (TrimSpace s).head? = some c → isSpace c = false)
      ∧ (∀ c, (TrimSpace s).getLast? = some c → isSpace c = false) := by
  have h1 : s = s.takeWhile isSpace ++ s.dropWhile isSpace := (List.takeWhile_append_dropWhile _ _).symm
  have h2 : (s.dropWhile isSpace).reverse
      = (s.dropWhile isSpace).reverse.takeWhile isSpace
        ++ (s.dropWhile isSpace).reverse.dropWhile isSpace :=
    (List.takeWhile_append_dropWhile _ _).symm
  refine ⟨s.takeWhile isSpace, ((s.dropWhile isSpace).reverse.takeWhile isSpace).reverse,
    ?_, ?_, ?_, ?_, ?_⟩
  · unfold TrimSpace
    rw [List.append_assoc, ← List.reverse_append, ← h2, List.reverse_reverse]
    exact h1
  · intro c hc
    exact (List.mem_takeWhile_imp hc)
  · intro c hc
    exact (List.mem_takeWhile_imp (List.mem_reverse.mp hc))
  · intro c hc
    have hX : s.dropWhile isSpace = TrimSpace s
        ++ ((s.dropWhile isSpace).reverse.takeWhile isSpace).reverse := by
      unfold TrimSpace
      rw [← List.reverse_append, ← h2, List.reverse_reverse]
    have hq := List.head?_dropWhile_not isSpace s
    cases hT : TrimSpace s with
    | nil => rw [hT] at hc; simp at hc
    | cons a b =>
      rw [hT] at hc
      simp only [List.head?_cons, Option.some.injEq] at hc
      subst hc
      have : (s.dropWhile isSpace).head? = some a := by
        rw [hX, hT]; rfl
      rw [this] at hq
      exact hq
  · intro c hc
    unfold TrimSpace at hc
    rw [List.getLast?_reverse] at hc
    have := List.head?_dropWhile_not isSpace (s.dropWhile isSpace).reverse
    rw [hc] at this
    exact this

/-! ## Lemmas: the loops that build the prefetch list -/

theorem foldl_rawHints (pieces : List Str) (acc : List Str) :
    pieces.foldl (fun acc piece => if TrimSpace piece = [] then acc else acc ++ [TrimSpace piece]) acc
      = acc ++ (pieces.map TrimSpace).filter (fun s => s ≠ []) := by
  induction pieces generalizing acc with
  | nil => simp
  | cons p ps ih =>
    simp only [List.foldl_cons, List.map_cons, List.filter_cons]
    by_cases h : TrimSpace p = []
    · simp [h, ih]
    · simp [h, ih]

theorem rawHints_eq (vals : List Str) :
    rawHints vals = vals.flatMap (fun v => ((Split ',' v).map TrimSpace).filter (fun s => s ≠ [])) := by
  unfold rawHints
  have key : ∀ acc : List Str,
      vals.foldl (fun acc headerValue => (Split ',' headerValue).foldl
        (fun acc piece => if TrimSpace piece = [] then acc else acc ++ [TrimSpace piece]) acc) acc
      = acc ++ vals.flatMap (fun v => ((Split ',' v).map TrimSpace).filter (fun s => s ≠ [])) := by
    induction vals with
    | nil => simp
    | cons v vs ih =>
      intro acc
      simp only [List.foldl_cons, List.flatMap_cons]
      rw [foldl_rawHints, ih]
      simp
  simpa using key []

theorem foldl_objectStep_fst (r : Request) (pieces : List Str) (acc : List Str × List Event) :
    (pieces.foldl (objectStep r) acc).1
      = acc.1 ++ ((pieces.map TrimSpace).filter (fun s => s ≠ [])).filterMap (resolve r) := by
  induction pieces generalizing acc with
  | nil => simp
  | cons p ps ih =>
    simp only [List.foldl_cons, List.map_cons, List.filter_cons]
    rw [ih]
    unfold objectStep
    by_cases h : TrimSpace p = []
    · simp [h]
    · cases hP : Parse (newPath r (TrimSpace p)) with
      | none => simp [h, hP, resolve, resolveURL]
      | some u => simp [h, hP, resolve, resolveURL]

/-- The prefetch list is what resolving the raw hints yields, in order, the
hints that do not resolve left out. -/
theorem buildPrefetchList_eq (r : Request) (vals : List Str) :
    (buildPrefetchList r vals).1 = (rawHints vals).filterMap (resolve r) := by
  rw [rawHints_eq]
  unfold buildPrefetchList
  have key : ∀ acc : List Str × List Event,
      (vals.foldl (fun acc headerValue => (Split ',' headerValue).foldl (objectStep r) acc) acc).1
      = acc.1 ++ (vals.flatMap (fun v => ((Split ',' v).map TrimSpace).filter
          (fun s => s ≠ []))).filterMap (resolve r) := by
    induction vals with
    | nil => simp
    | cons v vs ih =>
      intro acc
      simp only [List.foldl_cons, List.flatMap_cons, List.filterMap_append]
      rw [ih, foldl_objectStep_fst]
      simp
  simpa using key ([], [])

theorem isSpace_ne_comma (c : Char) (h : isSpace c = true) : c ≠ ',' := by
  intro hc
  subst hc
  revert h
  decide

/-- One header value: padding its comma-free pieces with white space does not
change the trimmed non-empty pieces. -/
theorem hints_of_padded (v : List (Str × Str × Str))
    (h : ∀ t ∈ v, (∀ c ∈ t.1, isSpace c = true) ∧ ',' ∉ t.2.1 ∧ ∀ c ∈ t.2.2, isSpace c = true) :
    ((Split ',' (List.intercalate [','] (v.map (fun t => t.1 ++ t.2.1 ++ t.2.2)))).map
        TrimSpace).filter (fun s => s ≠ [])
      = ((Split ',' (List.intercalate [','] (v.map (fun t => t.2.1)))).map
        TrimSpace).filter (fun s => s ≠ []) := by
  cases v with
  | nil => rfl
  | cons t ts =>
    have h1 : ∀ seg ∈ (t :: ts).map (fun t => t.1 ++ t.2.1 ++ t.2.2), ',' ∉ seg := by
      intro seg hseg
      obtain ⟨u, hu, rfl⟩ := List.mem_map.mp hseg
      obtain ⟨ha, hb, hc⟩ := h u hu
      simp only [List.mem_append, not_or]
      exact ⟨⟨fun hm => isSpace_ne_comma _ (ha _ hm) rfl, hb⟩,
        fun hm => isSpace_ne_comma _ (hc _ hm) rfl⟩
    have h2 : ∀ seg ∈ (t :: ts).map (fun t => t.2.1), ',' ∉ seg := by
      intro seg hseg
      obtain ⟨u, hu, rfl⟩ := List.mem_map.mp hseg
      exact (h u hu).2.1
    simp only [List.map_cons] at h1 h2 ⊢
    rw [Split_of_intercalate _ _ _ h1, Split_of_intercalate _ _ _ h2]
    congr 1
    rw [← List.map_cons (fun t : Str × Str × Str => t.1 ++ t.2.1 ++ t.2.2),
      ← List.map_cons (fun t : Str × Str × Str => t.2.1), List.map_map, List.map_map]
    apply List.map_congr_left
    intro u hu
    obtain ⟨ha, _, hc⟩ := h u hu
    exact TrimSpace_pad u.1 u.2.1 u.2.2 ha hc

/-! ## Lemmas: `strings` on concatenations -/

theorem takeWhile_ne_append (sep : Char) (a b : Str) (h : ∀ c ∈ a, c ≠ sep) :
    (a ++ b).takeWhile (fun c => c != sep) = a ++ b.takeWhile (fun c => c != sep) := by
  induction a with
  | nil => rfl
  | cons c cs ih =>
    simp only [List.mem_cons, forall_eq_or_imp] at h
    simp [List.takeWhile_cons, h.1, ih h.2]

theorem dropWhile_ne_append (sep : Char) (a b : Str) (h : ∀ c ∈ a, c ≠ sep) :
    (a ++ b).dropWhile (fun c => c != sep) = b.dropWhile (fun c => c != sep) := by
  induction a with
  | nil => rfl
  | cons c cs ih =>
    simp only [List.mem_cons, forall_eq_or_imp] at h
    simp [List.dropWhile_cons, h.1, ih h.2]

theorem Cut_append (sep : Char) (a b : Str) (h : ∀ c ∈ a, c ≠ sep) :
    Cut (a ++ b) sep = (a ++ (Cut b sep).1, (Cut b sep).2) := by
  simp only [Cut, takeWhile_ne_append sep a b h, dropWhile_ne_append sep a b h]

theorem Cut_fst_head (sep : Char) (s : Str) (c : Char) (h : s.head? = some c) (hc : c ≠ sep) :
    (Cut s sep).1.head? = some c := by
  cases s with
  | nil => simp at h
  | cons d ds =>
    simp only [List.head?_cons, Option.some.injEq] at h
    subst h
    simp [Cut, List.takeWhile_cons, hc]

theorem count_append_of_not_mem (sep : Char) (a b : Str) (h : ∀ c ∈ a, c ≠ sep) :
    (a ++ b).count sep = b.count sep := by
  rw [List.count_append]
  have : a.count sep = 0 := List.count_eq_zero.mpr (fun hm => h sep hm rfl)
  omega

theorem HasSuffix_append (a b : Str) (c : Char) (hb : b ≠ []) :
    HasSuffix (a ++ b) [c] = HasSuffix b [c] := by
  unfold HasSuffix
  rw [List.reverse_append]
  cases hr : b.reverse with
  | nil => exact absurd (List.reverse_eq_nil_iff.mp hr) hb
  | cons d ds =>
    simp only [List.reverse_singleton, List.cons_append, List.isPrefixOf_cons₂,
      List.isPrefixOf_nil_left]

theorem HasPrefix_cons_iff (s : Str) (c : Char) : HasPrefix s [c] = true ↔ s.head? = some c := by
  cases s with
  | nil => simp [HasPrefix]
  | cons d ds =>
    simp only [HasPrefix, List.isPrefixOf_cons₂, List.isPrefixOf_nil_left, Bool.and_true,
      beq_iff_eq, List.head?_cons, Option.some.injEq]
    exact eq_comm

/-! ## Lemmas: characters of schemes and hosts -/

theorem schemeClass_facts (c : Char) (h : schemeClass c ≠ 0) :
    c ≠ ':' ∧ c ≠ '/' ∧ c ≠ '?' ∧ c ≠ '#' ∧ c ≠ '@' ∧ ¬ (c.toNat < ' '.toNat ∨ c.toNat = 0x7f) := by
  refine ⟨?_, ?_, ?_, ?_, ?_, ?_⟩
  · rintro rfl; revert h; decide
  · rintro rfl; revert h; decide
  · rintro rfl; revert h; decide
  · rintro rfl; revert h; decide
  · rintro rfl; revert h; decide
  · intro hc
    apply h
    unfold schemeClass
    have e1 : 'a'.toNat = 97 := rfl
    have e2 : 'z'.toNat = 122 := rfl
    have e3 : 'A'.toNat = 65 := rfl
    have e4 : 'Z'.toNat = 90 := rfl
    have e5 : '0'.toNat = 48 := rfl
    have e6 : '9'.toNat = 57 := rfl
    have e7 : ' '.toNat = 32 := rfl
    rw [e7] at hc
    have n1 : c ≠ '+' := by rintro rfl; revert hc; decide
    have n2 : c ≠ '-' := by rintro rfl; revert hc; decide
    have n3 : c ≠ '.' := by rintro rfl; revert hc; decide
    rw [e1, e2, e3, e4, e5, e6]
    rw [if_neg (by omega), if_neg (by simp only [n1, n2, n3, or_false]; omega)]

theorem validScheme_facts (s : Str) (h : validScheme s = true) :
    (∃ c cs, s = c :: cs ∧ schemeClass c = 1) ∧ (∀ c ∈ s, schemeClass c ≠ 0)
      ∧ (∀ c ∈ s, ¬ ('A'.toNat ≤ c.toNat ∧ c.toNat ≤ 'Z'.toNat)) := by
  unfold validScheme at h
  rw [Bool.and_eq_true, List.all_eq_true] at h
  obtain ⟨h1, h2⟩ := h
  refine ⟨?_, ?_, ?_⟩
  · cases s with
    | nil => simp at h1
    | cons c cs =>
      refine ⟨c, cs, rfl, ?_⟩
      simp only [Bool.and_eq_true, decide_eq_true_eq] at h1
      unfold schemeClass
      rw [if_pos (Or.inl h1)]
  · intro c hc
    have := h2 c hc
    simp only [Bool.and_eq_true, decide_eq_true_eq] at this
    exact this.1
  · intro c hc
    have := h2 c hc
    simp only [Bool.and_eq_true, decide_eq_true_eq, Bool.not_eq_true', Bool.and_eq_false_iff,
      decide_eq_false_iff_not] at this
    intro hu
    rcases this.2 with h3 | h3
    · exact h3 hu.1
    · exact h3 hu.2

theorem schemeClass_cases (c : Char) :
    schemeClass c = 0 ∨ schemeClass c = 1 ∨ schemeClass c = 2 := by
  unfold schemeClass
  split
  · exact Or.inr (Or.inl rfl)
  · split
    · exact Or.inr (Or.inr rfl)
    · exact Or.inl rfl

theorem getSchemeLoop_cons (raw : Str) (c : Char) (rest seen : Str) :
    getSchemeLoop raw (c :: rest) seen =
      if schemeClass c = 1 then getSchemeLoop raw rest (c :: seen)
      else if schemeClass c = 2 then
        if seen = [] then some ([], raw) else getSchemeLoop raw rest (c :: seen)
      else if c = ':' then
        if seen = [] then none else some (seen.reverse, rest)
      else some ([], raw) := by
  rfl

theorem getSchemeLoop_valid (raw rest : Str) (cs seen : Str) (hall : ∀ c ∈ cs, schemeClass c ≠ 0)
    (hfirst : seen ≠ [] ∨ ∃ c cs1, cs = c :: cs1 ∧ schemeClass c = 1) :
    getSchemeLoop raw (cs ++ ':' :: rest) seen = some (seen.reverse ++ cs, rest) := by
  induction cs generalizing seen with
  | nil =>
    rcases hfirst with hf | ⟨c, cs1, hc, _⟩
    · have h0 : schemeClass ':' = 0 := by decide
      rw [List.nil_append, getSchemeLoop_cons, h0]
      simp [hf]
    · simp at hc
  | cons c cs ih =>
    simp only [List.mem_cons, forall_eq_or_imp] at hall
    rw [List.cons_append, getSchemeLoop_cons]
    by_cases h1 : schemeClass c = 1
    · rw [if_pos h1, ih (c :: seen) hall.2 (Or.inl (by simp))]
      simp
    · have h2 : schemeClass c = 2 := by
        rcases schemeClass_cases c with h | h | h
        · exact absurd h hall.1
        · exact absurd h h1
        · exact h
      have hs : seen ≠ [] := by
        rcases hfirst with hf | ⟨d, ds, hd, hd1⟩
        · exact hf
        · simp only [List.cons.injEq] at hd
          rw [← hd.1] at hd1
          exact absurd hd1 h1
      rw [if_neg h1, if_pos h2, if_neg hs, ih (c :: seen) hall.2 (Or.inl (by simp))]
      simp

theorem getScheme_valid (s rest : Str) (h : validScheme s = true) :
    getScheme (s ++ ':' :: rest) = some (s, rest) := by
  obtain ⟨h1, h2, _⟩ := validScheme_facts s h
  unfold getScheme
  rw [getSchemeLoop_valid _ rest s [] h2 (Or.inr h1)]
  simp

theorem ToLower_valid (s : Str) (h : validScheme s = true) : ToLower s = s := by
  obtain ⟨_, _, h3⟩ := validScheme_facts s h
  unfold ToLower
  conv_rhs => rw [← List.map_id s]
  apply List.map_congr_left
  intro c hc
  rw [if_neg (h3 c hc)]
  rfl

theorem validScheme_ne_nil (s : Str) (h : validScheme s = true) : s ≠ [] := by
  obtain ⟨⟨c, cs, hc, _⟩, _, _⟩ := validScheme_facts s h
  rw [hc]; simp

/-- What a character of a valid host cannot be. -/
theorem hostChar_facts (c : Char)
    (h : (c.toNat < 0x80 && !shouldEscape c.toNat encodeHost) = true) :
    c ≠ '/' ∧ c ≠ '?' ∧ c ≠ '#' ∧ c ≠ '@' ∧ c ≠ '%'
      ∧ ¬ (c.toNat < ' '.toNat ∨ c.toNat = 0x7f) := by
  refine ⟨?_, ?_, ?_, ?_, ?_, ?_⟩
  · rintro rfl; revert h; decide
  · rintro rfl; revert h; decide
  · rintro rfl; revert h; decide
  · rintro rfl; revert h; decide
  · rintro rfl; revert h; decide
  · have key : ∀ n < 128, shouldEscape n encodeHost = false → ¬ (n < 32 ∨ n = 127) := by
      decide!
    simp only [Bool.and_eq_true, decide_eq_true_eq, Bool.not_eq_true'] at h
    exact key c.toNat h.1 h.2

theorem validHost_facts (h : Str) (hh : validHost h = true) :
    ∀ c ∈ h, (c.toNat < 0x80 ∧ shouldEscape c.toNat encodeHost = false)
      ∧ c ≠ '/' ∧ c ≠ '?' ∧ c ≠ '#' ∧ c ≠ '@' ∧ c ≠ '%'
      ∧ ¬ (c.toNat < ' '.toNat ∨ c.toNat = 0x7f) := by
  intro c hc
  unfold validHost at hh
  rw [List.all_eq_true] at hh
  have := hh c hc
  refine ⟨?_, hostChar_facts c this⟩
  simpa using this

/-! ## Lemmas: hosts -/

theorem unescape_cons (mode : encoding) (c : Char) (rest : Str) :
    unescape mode (c :: rest) =
    if c = '%' then
      match rest with
      | h :: l :: rest2 =>
        if !ishex h || !ishex l then none
        else if mode = encodeHost ∧ unhex h < 8 ∧ ¬ (h = '2' ∧ l = '5') then none
        else if mode = encodeZone ∧ ¬ (h = '2' ∧ l = '5') ∧ unhex h * 16 + unhex l ≠ ' '.toNat
            ∧ shouldEscape (unhex h * 16 + unhex l) encodeHost then none
        else (unescape mode rest2).map (fun t => (unhex h * 16 + unhex l) :: t)
      | _ => none
    else if c = '+' ∧ mode = encodeQueryComponent then
      (unescape mode rest).map (fun t => ' '.toNat :: t)
    else if (mode = encodeHost ∨ mode = encodeZone) ∧ c.toNat < 0x80
        ∧ shouldEscape c.toNat encodeHost then none
    else (unescape mode rest).map (fun t => utf8EncodeChar c ++ t) := by
  cases rest with
  | nil => rfl
  | cons d ds =>
    cases ds with
    | nil => rfl
    | cons e es => rfl

theorem unescape_cons_plain (mode : encoding) (c : Char) (rest : Str) (h1 : c ≠ '%')
    (h2 : ¬ (c = '+' ∧ mode = encodeQueryComponent))
    (h3 : ¬ ((mode = encodeHost ∨ mode = encodeZone) ∧ c.toNat < 0x80
      ∧ shouldEscape c.toNat encodeHost = true)) :
    unescape mode (c :: rest) = (unescape mode rest).map (fun t => utf8EncodeChar c ++ t) := by
  rw [unescape_cons, if_neg h1, if_neg h2, if_neg h3]

theorem utf8EncodeChar_ascii (c : Char) (h : c.toNat < 0x80) : utf8EncodeChar c = [c.toNat] := by
  unfold utf8EncodeChar
  simp only [h, if_true]

theorem unescape_host_valid (h : Str) (hh : validHost h = true) :
    unescape encodeHost h = some (h.map Char.toNat) := by
  induction h with
  | nil => rfl
  | cons c cs ih =>
    have hc := validHost_facts (c :: cs) hh c (List.mem_cons_self _ _)
    have hcs : validHost cs = true := by
      unfold validHost at hh ⊢
      rw [List.all_cons, Bool.and_eq_true] at hh
      exact hh.2
    rw [unescape_cons_plain encodeHost c cs hc.2.2.2.2.2.1 (by simp)
      (by simp [hc.1.2]), ih hcs, utf8EncodeChar_ascii c hc.1.1]
    rfl

theorem Index_none_of_not_mem (c : Char) (p s : Str) (h : c ∉ s) : Index (c :: p) s = none := by
  induction s with
  | nil => simp [Index]
  | cons d ds ih =>
    simp only [List.mem_cons, not_or] at h
    rw [Index]
    have : (c :: p).isPrefixOf (d :: ds) = false := by
      rw [List.isPrefixOf_cons₂]
      have : (c == d) = false := by simpa using h.1
      simp [this]
    simp [this, ih h.2]

theorem cutLast_none (s : Str) (sep : Char) (h : sep ∉ s) : cutLast s sep = none := by
  unfold cutLast
  rw [if_neg h]

/-- For a valid host, `parseHost` fails or returns the host unchanged. -/
theorem parseHost_valid (h : Str) (hh : validHost h = true) (hb : Bytes)
    (hp : parseHost h = some hb) : hb = h.map Char.toNat := by
  have hpct : ∀ n, '%' ∉ h.take n := by
    intro n hm
    exact (validHost_facts h hh '%' (List.mem_of_mem_take hm)).2.2.2.2.2.1 rfl
  unfold parseHost at hp
  split at hp
  · split at hp
    · simp at hp
    · rename_i bb fb hcut
      split at hp
      · simp at hp
      · have hbb : bb = h.take (h.length - (h.reverse.takeWhile (fun c => c != ']')).length - 1) := by
          unfold cutLast at hcut
          split at hcut
          · simp only [Option.some.injEq, Prod.mk.injEq] at hcut
            exact hcut.1.symm
          · simp at hcut
        have e25 : "%25".toList = '%' :: ['2', '5'] := rfl
        rw [hbb, e25, Index_none_of_not_mem '%' _ _ (hpct _)] at hp
        simp only at hp
        rw [unescape_host_valid h hh] at hp
        exact (Option.some.inj hp).symm
  · split at hp
    · split at hp
      · simp at hp
      · rw [unescape_host_valid h hh] at hp
        exact (Option.some.inj hp).symm
    · rw [unescape_host_valid h hh] at hp
      exact (Option.some.inj hp).symm

theorem parseAuthority_valid (h : Str) (hh : validHost h = true) :
    parseAuthority h = (parseHost h).map (fun host => (none, host)) := by
  unfold parseAuthority
  rw [cutLast_none h '@' (fun hm => (validHost_facts h hh '@' hm).2.2.2.2.1 rfl)]

/-! ## Lemmas: `parse` on `scheme://host/...` -/

theorem ctl_append (a b : Str) :
    stringContainsCTLByte (a ++ b) = (stringContainsCTLByte a || stringContainsCTLByte b) := by
  simp [stringContainsCTLByte, List.any_append]

theorem ctl_false_of_forall (a : Str) (h : ∀ c ∈ a, ¬ (c.toNat < ' '.toNat ∨ c.toNat = 0x7f)) :
    stringContainsCTLByte a = false := by
  unfold stringContainsCTLByte
  rw [List.any_eq_false]
  intro c hc
  have := h c hc
  simpa using this

/-- The path part of a text that starts with a slash starts with a slash. -/
theorem pathPart_head (pre : Str) (hp : pre.head? = some '/') : (pathPart pre).head? = some '/' := by
  unfold pathPart
  by_cases hq : queryForced pre = true
  · rw [if_pos hq]
    cases pre with
    | nil => simp at hp
    | cons c cs =>
      simp only [List.head?_cons, Option.some.injEq] at hp
      subst hp
      cases cs with
      | nil =>
        exfalso
        revert hq
        decide
      | cons d ds => simp
  · rw [if_neg hq]
    exact Cut_fst_head '?' pre '/' hp (by decide)

theorem take_pred_append (a b : Str) (hb : b ≠ []) :
    (a ++ b).take ((a ++ b).length - 1) = a ++ b.take (b.length - 1) := by
  have hl : 0 < b.length := List.length_pos.mpr hb
  rw [List.take_append_eq_append_take]
  have h1 : (a ++ b).length - 1 - a.length = b.length - 1 := by
    simp only [List.length_append]; omega
  have h2 : a.length ≤ (a ++ b).length - 1 := by
    simp only [List.length_append]; omega
  rw [h1, List.take_of_length_le h2]

theorem parseNoFragment_hier (sch h pre : Str) (hs : validScheme sch = true)
    (hh : validHost h = true) (hp : pre.head? = some '/') :
    parseNoFragment (sch ++ ':' :: '/' :: '/' :: (h ++ pre)) =
      if stringContainsCTLByte pre then none
      else (parseHost h).bind (fun hb =>
        URL.setPath { URL.zero with Scheme := sch, Host := hb, ForceQuery := queryForced pre,
                                    RawQuery := queryPart pre } (pathPart pre)) := by
  have hpre : pre ≠ [] := by
    intro hn; rw [hn] at hp; simp at hp
  obtain ⟨hs1, hs2, hs3⟩ := validScheme_facts sch hs
  have hhf := validHost_facts h hh
  have hctl : stringContainsCTLByte (sch ++ ':' :: '/' :: '/' :: (h ++ pre))
      = stringContainsCTLByte pre := by
    have e : sch ++ ':' :: '/' :: '/' :: (h ++ pre) = sch ++ ([':', '/', '/'] ++ (h ++ pre)) := rfl
    rw [e, ctl_append, ctl_append, ctl_append,
      ctl_false_of_forall sch (fun c hc => (schemeClass_facts c (hs2 c hc)).2.2.2.2.2),
      ctl_false_of_forall h (fun c hc => (hhf c hc).2.2.2.2.2.2)]
    have : stringContainsCTLByte [':', '/', '/'] = false := by decide
    rw [this]
    rfl
  have hstar : sch ++ ':' :: '/' :: '/' :: (h ++ pre) ≠ ['*'] := by
    intro he
    have := congrArg List.length he
    simp only [List.length_append, List.length_cons, List.length_nil] at this
    omega
  have hget := getScheme_valid sch ('/' :: '/' :: (h ++ pre)) hs
  have hnq : ∀ c ∈ '/' :: '/' :: h, c ≠ '?' := by
    intro c hc
    simp only [List.mem_cons] at hc
    rcases hc with rfl | rfl | hc
    · decide
    · decide
    · exact (hhf c hc).2.2.1
  have e2 : '/' :: '/' :: (h ++ pre) = ('/' :: '/' :: h) ++ pre := rfl
  have hsuf : HasSuffix ('/' :: '/' :: (h ++ pre)) ['?'] = HasSuffix pre ['?'] := by
    rw [e2, HasSuffix_append _ _ _ hpre]
  have hcnt : ('/' :: '/' :: (h ++ pre)).count '?' = pre.count '?' := by
    rw [e2, count_append_of_not_mem _ _ _ hnq]
  have hcut : Cut ('/' :: '/' :: (h ++ pre)) '?'
      = ('/' :: '/' :: (h ++ (Cut pre '?').1), (Cut pre '?').2) := by
    rw [e2, Cut_append _ _ _ hnq]; rfl
  have htake : ('/' :: '/' :: (h ++ pre)).take (('/' :: '/' :: (h ++ pre)).length - 1)
      = '/' :: '/' :: (h ++ pre.take (pre.length - 1)) := by
    rw [e2, take_pred_append _ _ hpre]; rfl
  have hlow := ToLower_valid sch hs
  have hne := validScheme_ne_nil sch hs
  have hph := pathPart_head pre hp
  unfold parseNoFragment
  rw [hctl]
  by_cases hc : stringContainsCTLByte pre = true
  · rw [if_pos hc, if_pos hc]
  · rw [if_neg hc, if_neg hc, if_neg hstar, hget]
    simp only [hsuf, hcnt, hcut, htake, hlow]
    have hqf : queryForced pre = (HasSuffix pre ['?'] && decide (pre.count '?' = 1)) := rfl
    have hauth : ∀ p : Str, p.head? = some '/' →
        (h ++ p).takeWhile (fun c => c != '/') = h
        ∧ (h ++ p).dropWhile (fun c => c != '/') = p := by
      intro p hp1
      rw [takeWhile_ne_append '/' h p (fun c hc => (hhf c hc).2.1),
        dropWhile_ne_append '/' h p (fun c hc => (hhf c hc).2.1)]
      cases p with
      | nil => simp at hp1
      | cons d ds =>
        simp only [List.head?_cons, Option.some.injEq] at hp1
        subst hp1
        simp [List.takeWhile_cons, List.dropWhile_cons]
    have hP1 : ∀ p : Str, HasPrefix ('/' :: '/' :: (h ++ p)) ['/'] = true := by
      intro p; simp [HasPrefix]
    have hP2 : ∀ p : Str, HasPrefix ('/' :: '/' :: (h ++ p)) ['/', '/'] = true := by
      intro p; simp [HasPrefix]
    by_cases hq : (HasSuffix pre ['?'] && decide (pre.count '?' = 1)) = true
    · have hpp : pathPart pre = pre.take (pre.length - 1) := by
        unfold pathPart; rw [hqf, if_pos hq]
      have hqp : queryPart pre = [] := by
        unfold queryPart; rw [hqf, if_pos hq]
      rw [hpp] at hph
      simp only [hq, if_true, hqf, hpp, hqp]
      cases hph2 : parseHost h with
      | none => simp [hP1, hP2, (hauth _ hph).1, (hauth _ hph).2, parseAuthority_valid h hh, hne, hph2]
      | some hb =>
        simp [hP1, hP2, (hauth _ hph).1, (hauth _ hph).2, parseAuthority_valid h hh, hne, hph2,
          URL.zero]
    · have hpp : pathPart pre = (Cut pre '?').1 := by
        unfold pathPart; rw [hqf, if_neg hq]
      have hqp : queryPart pre = (Cut pre '?').2 := by
        unfold queryPart; rw [hqf, if_neg hq]
      rw [hpp] at hph
      simp only [hq, if_false, hqf, hpp, hqp]
      cases hph2 : parseHost h with
      | none => simp [hP1, hP2, (hauth _ hph).1, (hauth _ hph).2, parseAuthority_valid h hh, hne, hph2]
      | some hb =>
        simp [hP1, hP2, (hauth _ hph).1, (hauth _ hph).2, parseAuthority_valid h hh, hne, hph2,
          URL.zero]

theorem unescape_path_head (p : Str) (path : Bytes) (hp : p.head? = some '/')
    (hu : unescape encodePath p = some path) : path.head? = some '/'.toNat := by
  cases p with
  | nil => simp at hp
  | cons c cs =>
    simp only [List.head?_cons, Option.some.injEq] at hp
    subst hp
    rw [unescape_cons_plain encodePath '/' cs (by decide) (by simp) (by simp)] at hu
    cases hr : unescape encodePath cs with
    | none => rw [hr] at hu; simp at hu
    | some t =>
      rw [hr] at hu
      simp only [Option.map_some', Option.some.injEq] at hu
      rw [← hu]
      rfl

theorem setPath_hier (u v : URL) (p : Str) (hp : p.head? = some '/')
    (h : URL.setPath u p = some v) :
    v.Scheme = u.Scheme ∧ v.Opaque = u.Opaque ∧ v.User = u.User ∧ v.Host = u.Host
      ∧ v.OmitHost = u.OmitHost ∧ v.ForceQuery = u.ForceQuery ∧ v.RawQuery = u.RawQuery
      ∧ v.Fragment = u.Fragment ∧ v.RawFragment = u.RawFragment
      ∧ unescape encodePath p = some v.Path
      ∧ v.RawPath = (if p = escape encodePath v.Path then [] else p)
      ∧ v.Path.head? = some '/'.toNat
      ∧ (v.RawPath = [] ∨ v.RawPath.head? = some '/') := by
  unfold URL.setPath at h
  cases hr : unescape encodePath p with
  | none => rw [hr] at h; simp at h
  | some path =>
    rw [hr] at h
    simp only [Option.map_some', Option.some.injEq] at h
    subst h
    refine ⟨rfl, rfl, rfl, rfl, rfl, rfl, rfl, rfl, rfl, rfl, rfl,
      unescape_path_head p path hp hr, ?_⟩
    by_cases he : p = escape encodePath path
    · left; simp [he]
    · right; simp only [he, if_false]; exact hp

theorem setFragment_fields (u v : URL) (f : Str) (h : URL.setFragment u f = some v) :
    v.Scheme = u.Scheme ∧ v.Opaque = u.Opaque ∧ v.User = u.User ∧ v.Host = u.Host
      ∧ v.OmitHost = u.OmitHost ∧ v.ForceQuery = u.ForceQuery ∧ v.RawQuery = u.RawQuery
      ∧ v.Path = u.Path ∧ v.RawPath = u.RawPath
      ∧ unescape encodeFragment f = some v.Fragment
      ∧ v.RawFragment = (if f = escape encodeFragment v.Fragment then [] else f) := by
  unfold URL.setFragment at h
  cases hr : unescape encodeFragment f with
  | none => rw [hr] at h; simp at h
  | some frag =>
    rw [hr] at h
    simp only [Option.map_some', Option.some.injEq] at h
    subst h
    exact ⟨rfl, rfl, rfl, rfl, rfl, rfl, rfl, rfl, rfl, rfl, rfl⟩

/-- What `url.Parse` returns for a text `scheme://host/...` with a valid scheme
and a valid host. -/
theorem Parse_hier (sch h tail : Str) (u : URL) (hs : validScheme sch = true)
    (hh : validHost h = true) (ht : tail.head? = some '/')
    (hP : Parse (sch ++ ':' :: '/' :: '/' :: (h ++ tail)) = some u) :
    HierURL sch h u
      ∧ stringContainsCTLByte (Cut tail '#').1 = false
      ∧ unescape encodePath (pathPart (Cut tail '#').1) = some u.Path
      ∧ u.RawPath = (if pathPart (Cut tail '#').1 = escape encodePath u.Path then []
          else pathPart (Cut tail '#').1)
      ∧ u.ForceQuery = queryForced (Cut tail '#').1
      ∧ u.RawQuery = queryPart (Cut tail '#').1
      ∧ (if (Cut tail '#').2 = [] then u.Fragment = [] ∧ u.RawFragment = []
          else unescape encodeFragment (Cut tail '#').2 = some u.Fragment
            ∧ u.RawFragment = (if (Cut tail '#').2 = escape encodeFragment u.Fragment then []
                else (Cut tail '#').2)) := by
  obtain ⟨_, hs2, _⟩ := validScheme_facts sch hs
  have hhf := validHost_facts h hh
  have hnh : ∀ c ∈ sch ++ ':' :: '/' :: '/' :: h, c ≠ '#' := by
    intro c hc
    simp only [List.mem_append, List.mem_cons] at hc
    rcases hc with hc | rfl | rfl | rfl | hc
    · exact (schemeClass_facts c (hs2 c hc)).2.2.2.1
    · decide
    · decide
    · decide
    · exact (hhf c hc).2.2.2.1
  have e : sch ++ ':' :: '/' :: '/' :: (h ++ tail) = (sch ++ ':' :: '/' :: '/' :: h) ++ tail := by
    simp
  have hcut : Cut (sch ++ ':' :: '/' :: '/' :: (h ++ tail)) '#'
      = (sch ++ ':' :: '/' :: '/' :: (h ++ (Cut tail '#').1), (Cut tail '#').2) := by
    rw [e, Cut_append _ _ _ hnh]; simp
  have hph : (Cut tail '#').1.head? = some '/' := Cut_fst_head '#' tail '/' ht (by decide)
  unfold Parse at hP
  rw [hcut] at hP
  simp only at hP
  rw [parseNoFragment_hier sch h _ hs hh hph] at hP
  by_cases hc : stringContainsCTLByte (Cut tail '#').1 = true
  · simp [hc] at hP
  · rw [if_neg hc] at hP
    cases hph2 : parseHost h with
    | none => simp [hph2] at hP
    | some hb =>
      have hbv := parseHost_valid h hh hb hph2
      simp only [hph2, Option.some_bind] at hP
      split at hP
      · exact absurd hP (by simp)
      · rename_i v hsp
        obtain ⟨v1, v2, v3, v4, v5, v6, v7, v8, v9, v10, v11, v12, v13⟩ :=
          setPath_hier _ v _ (pathPart_head _ hph) hsp
        by_cases hf : (Cut tail '#').2 = []
        · simp only [hf, if_true, Option.some.injEq] at hP ⊢
          subst hP
          refine ⟨⟨v1, v2, v3, ?_, v5, v12, v13⟩, by simpa using hc, v10, v11, v6, v7, ?_⟩
          · rw [v4]; exact hbv
          · exact ⟨v8, v9⟩
        · simp only [hf, if_false] at hP ⊢
          obtain ⟨w1, w2, w3, w4, w5, w6, w7, w8, w9, w10, w11⟩ := setFragment_fields v u _ hP
          refine ⟨⟨w1.trans v1, w2.trans v2, w3.trans v3, ?_, w5.trans v5, ?_, ?_⟩,
            by simpa using hc, ?_, ?_, w6.trans v6, w7.trans v7, w10, w11⟩
          · rw [w4, v4]; exact hbv
          · rw [w8]; exact v12
          · rw [w9]; exact v13
          · rw [w8]; exact v10
          · rw [w9, w8]; exact v11

/-! ## Lemmas: `URL.String` on `scheme://host/...` -/

theorem escape_cons (mode : encoding) (c : Nat) (s : Bytes) :
    escape mode (c :: s) =
      (if shouldEscape c mode then
        if c = ' '.toNat ∧ mode = encodeQueryComponent then ['+']
        else ['%', upperhex (c / 16 % 16), upperhex (c % 16)]
      else [Char.ofNat c]) ++ escape mode s := by
  simp [escape, List.flatMap_cons]

theorem escape_host_valid (h : Str) (hh : validHost h = true) :
    escape encodeHost (h.map Char.toNat) = h := by
  induction h with
  | nil => rfl
  | cons c cs ih =>
    have hc := validHost_facts (c :: cs) hh c (List.mem_cons_self _ _)
    have hcs : validHost cs = true := by
      unfold validHost at hh ⊢
      rw [List.all_cons, Bool.and_eq_true] at hh
      exact hh.2
    rw [List.map_cons, escape_cons, ih hcs, hc.1.2]
    simp [Char.ofNat_toNat]

theorem EscapedPath_head (u : URL) (h1 : u.Path.head? = some '/'.toNat)
    (h2 : u.RawPath = [] ∨ u.RawPath.head? = some '/') : u.EscapedPath.head? = some '/' := by
  unfold URL.EscapedPath
  split
  · rename_i hc
    rcases h2 with h2 | h2
    · exact absurd h2 hc.1
    · exact h2
  · split
    · rename_i hs
      rw [hs] at h1
      revert h1
      decide
    · cases hp : u.Path with
      | nil => rw [hp] at h1; simp at h1
      | cons b bs =>
        rw [hp] at h1
        simp only [List.head?_cons, Option.some.injEq] at h1
        subst h1
        rw [escape_cons]
        have : shouldEscape '/'.toNat encodePath = false := by decide
        rw [this]
        rfl

theorem String_hier (sch h : Str) (u : URL) (hs : validScheme sch = true)
    (hh : validHost h = true) (hu : HierURL sch h u) :
    u.String = sch ++ ':' :: '/' :: '/' :: (h ++ (u.EscapedPath
      ++ ((if u.ForceQuery = true ∨ u.RawQuery ≠ [] then '?' :: u.RawQuery else [])
      ++ (if u.Fragment ≠ [] then '#' :: u.EscapedFragment else [])))) := by
  obtain ⟨h1, h2, h3, h4, h5, h6, h7⟩ := hu
  have hne := validScheme_ne_nil sch hs
  have hpne : u.Path ≠ [] := by
    intro hn; rw [hn] at h6; simp at h6
  have hep := EscapedPath_head u h6 h7
  have hepne : u.EscapedPath ≠ [] := by
    intro hn; rw [hn] at hep; simp at hep
  have hhost : (if u.Host = [] then sch ++ [':', '/', '/']
      else sch ++ ':' :: '/' :: '/' :: escape encodeHost u.Host) = sch ++ ':' :: '/' :: '/' :: h := by
    rw [h4, escape_host_valid h hh]
    cases h with
    | nil => simp
    | cons c cs => simp
  have hxne : sch ++ ':' :: '/' :: '/' :: h ≠ [] := by simp
  unfold URL.String URL.stringHier
  simp only [h1, h2, h3, h5, hne, hpne, hep]
  simp [hne, hpne, hhost, hxne]
  split_ifs <;> simp

/-! ## Lemmas: `path.Dir` of a rooted path is rooted -/

theorem cleanBacktrack_last (last : Char) (l : List Char) (hl : l ≠ []) :
    (cleanBacktrack 1 last l).getLast? = l.getLast? := by
  induction l generalizing last with
  | nil => exact absurd rfl hl
  | cons c cs ih =>
    rw [cleanBacktrack]
    by_cases hc : (c :: cs).length > 1 ∧ last ≠ '/'
    · rw [if_pos hc]
      have hcs : cs ≠ [] := by
        intro hn
        rw [hn] at hc
        simp at hc
      rw [ih c hcs]
      cases cs with
      | nil => exact absurd rfl hcs
      | cons d ds => simp [List.getLast?_cons_cons]
    · rw [if_neg hc]

theorem cleanLoop_cons_true (rooted : Bool) (c : Char) (rest out : List Char) (dotdot : Nat) :
    cleanLoop rooted (c :: rest) true out dotdot =
      if c = '/' then cleanLoop rooted rest false out dotdot
      else cleanLoop rooted rest true (c :: out) dotdot := by
  rw [cleanLoop]

theorem cleanLoop_cons_false (rooted : Bool) (c : Char) (rest out : List Char) (dotdot : Nat) :
    cleanLoop rooted (c :: rest) false out dotdot =
      if c = '/' then cleanLoop rooted rest false out dotdot
      else if c = '.' ∧ (rest = [] ∨ rest.head? = some '/') then
        cleanLoop rooted rest false out dotdot
      else if c = '.' ∧ rest.head? = some '.' ∧ (rest.tail = [] ∨ rest.tail.head? = some '/') then
        match rest with
        | [] => out
        | _ :: rest2 =>
          if out.length > dotdot then
            match out with
            | [] => cleanLoop rooted rest2 false out dotdot
            | top :: below => cleanLoop rooted rest2 false (cleanBacktrack dotdot top below) dotdot
          else if !rooted then
            cleanLoop rooted rest2 false ('.' :: '.' :: (if out.length > 0 then '/' :: out else out))
              ((if out.length > 0 then '/' :: out else out).length + 2)
          else cleanLoop rooted rest2 false out dotdot
      else
        cleanLoop rooted rest true
          (c :: (if (rooted ∧ out.length ≠ 1) ∨ (¬ rooted ∧ out.length ≠ 0) then '/' :: out else out))
          dotdot := by
  cases rest with
  | nil => rfl
  | cons d ds => rfl

theorem getLast?_cons_of_some (c d : Char) (l : List Char) (h : l.getLast? = some d) :
    (c :: l).getLast? = some d := by
  cases l with
  | nil => simp at h
  | cons e es => rw [List.getLast?_cons_cons]; exact h

theorem cleanLoop_rooted_last (n : Nat) : ∀ (xs : List Char) (b : Bool) (out : List Char),
    xs.length ≤ n → out.getLast? = some '/' →
    (cleanLoop true xs b out 1).getLast? = some '/' := by
  induction n with
  | zero =>
    intro xs b out hn ho
    have : xs = [] := List.length_eq_zero.mp (Nat.le_zero.mp hn)
    subst this
    cases b <;> simpa [cleanLoop] using ho
  | succ n ih =>
    intro xs b out hn ho
    cases xs with
    | nil => cases b <;> simpa [cleanLoop] using ho
    | cons c rest =>
      have hr : rest.length ≤ n := by simpa using hn
      cases b with
      | true =>
        rw [cleanLoop_cons_true]
        split
        · exact ih rest false out hr ho
        · exact ih rest true (c :: out) hr (getLast?_cons_of_some _ _ _ ho)
      | false =>
        rw [cleanLoop_cons_false]
        by_cases h1 : c = '/'
        · rw [if_pos h1]; exact ih rest false out hr ho
        · rw [if_neg h1]
          by_cases h2 : c = '.' ∧ (rest = [] ∨ rest.head? = some '/')
          · rw [if_pos h2]; exact ih rest false out hr ho
          · rw [if_neg h2]
            by_cases h3 : c = '.' ∧ rest.head? = some '.'
                ∧ (rest.tail = [] ∨ rest.tail.head? = some '/')
            · rw [if_pos h3]
              cases rest with
              | nil => exact ho
              | cons d rest2 =>
                have hr2 : rest2.length ≤ n := by
                  simp only [List.length_cons] at hr; omega
                simp only []
                by_cases h4 : out.length > 1
                · rw [if_pos h4]
                  cases out with
                  | nil => simp at h4
                  | cons top below =>
                    simp only []
                    have hb : below ≠ [] := by
                      intro hnil
                      rw [hnil] at h4
                      simp at h4
                    apply ih rest2 false _ hr2
                    rw [cleanBacktrack_last top below hb]
                    cases below with
                    | nil => exact absurd rfl hb
                    | cons e es => rw [List.getLast?_cons_cons] at ho; exact ho
                · rw [if_neg h4]
                  simp only [Bool.not_true, Bool.false_eq_true, if_false]
                  exact ih rest2 false out hr2 ho
            · rw [if_neg h3]
              apply ih rest true _ hr
              apply getLast?_cons_of_some
              split
              · exact getLast?_cons_of_some _ _ _ ho
              · exact ho

theorem dropWhile_snoc_last (p : Char → Bool) (l : List Char) (a : Char) (ha : p a = false) :
    ((l ++ [a]).dropWhile p).getLast? = some a := by
  induction l with
  | nil => simp [List.dropWhile_cons, ha]
  | cons c cs ih =>
    rw [List.cons_append, List.dropWhile_cons]
    split
    · exact ih
    · exact List.getLast?_concat (c :: cs)

/-- A path that begins with a slash has a directory that begins with a slash. -/
theorem Dir_rooted (path : Str) (h : path.head? = some '/') : (Dir path).head? = some '/' := by
  cases path with
  | nil => simp at h
  | cons c rest =>
    simp only [List.head?_cons, Option.some.injEq] at h
    subst h
    have hsd : (splitDir ('/' :: rest)).head? = some '/' := by
      unfold splitDir
      rw [List.head?_reverse, List.reverse_cons]
      exact dropWhile_snoc_last _ _ _ (by decide)
    unfold Dir
    cases hs : splitDir ('/' :: rest) with
    | nil => rw [hs] at hsd; simp at hsd
    | cons d ds =>
      rw [hs] at hsd
      simp only [List.head?_cons, Option.some.injEq] at hsd
      subst hsd
      unfold Clean
      simp only [if_true]
      have hl := cleanLoop_rooted_last ds.length ds false ['/'] (le_refl _) (by simp)
      split
      · rename_i hnil
        rw [hnil] at hl
        simp at hl
      · rw [List.head?_reverse]
        exact hl

/-! ## Lemmas: resolving a hint -/

theorem newPath_shape (r : Request) (object : Str) (hp : r.URL.Path.head? = some '/') :
    ∃ tail : Str, tail.head? = some '/'
      ∧ newPath r object = r.URL.Scheme ++ ':' :: '/' :: '/' :: (r.URL.Host ++ tail) := by
  unfold newPath
  by_cases ha : HasPrefix object ['/'] = true
  · refine ⟨object, (HasPrefix_cons_iff object '/').mp ha, ?_⟩
    rw [if_pos ha]
    simp
  · refine ⟨Dir r.URL.Path ++ '/' :: object, ?_, ?_⟩
    · have := Dir_rooted r.URL.Path hp
      cases hd : Dir r.URL.Path with
      | nil => rw [hd] at this; simp at this
      | cons c cs => rw [hd] at this; simpa using this
    · rw [if_neg ha]
      simp

theorem HierURL_withQuery (sch h : Str) (u : URL) (q : Str) (hu : HierURL sch h u) :
    HierURL sch h { u with RawQuery := q } := hu

/-- A resolved URL has the scheme and the host of the request, as a structure
and again when its text is parsed. -/
theorem resolve_hier (r : Request) (object : Str) (hs : validScheme r.URL.Scheme = true)
    (hh : validHost r.URL.Host = true) (hp : r.URL.Path.head? = some '/') :
    (∀ u, resolveURL r object = some u → HierURL r.URL.Scheme r.URL.Host u)
      ∧ (∀ s u2, resolve r object = some s → Parse s = some u2 →
          HierURL r.URL.Scheme r.URL.Host u2) := by
  obtain ⟨tail, ht, hn⟩ := newPath_shape r object hp
  have h1 : ∀ u, resolveURL r object = some u → HierURL r.URL.Scheme r.URL.Host u := by
    intro u hu
    unfold resolveURL at hu
    rw [hn] at hu
    cases hP : Parse (r.URL.Scheme ++ ':' :: '/' :: '/' :: (r.URL.Host ++ tail)) with
    | none => rw [hP] at hu; simp at hu
    | some v =>
      rw [hP] at hu
      simp only [Option.map_some', Option.some.injEq] at hu
      subst hu
      exact HierURL_withQuery _ _ v _ (Parse_hier _ _ tail v hs hh ht hP).1
  refine ⟨h1, ?_⟩
  intro s u2 hr hP2
  unfold resolve at hr
  cases hu : resolveURL r object with
  | none => rw [hu] at hr; simp at hr
  | some u =>
    rw [hu] at hr
    simp only [Option.map_some', Option.some.injEq] at hr
    have hH := h1 u hu
    rw [String_hier _ _ u hs hh hH] at hr
    subst hr
    have hep := EscapedPath_head u hH.2.2.2.2.2.1 hH.2.2.2.2.2.2
    refine (Parse_hier _ _ _ u2 hs hh ?_ hP2).1
    cases he : u.EscapedPath with
    | nil => rw [he] at hep; simp at hep
    | cons c cs => rw [he] at hep; simpa using hep

theorem shouldEscape_false_lt (b : Nat) (mode : encoding) (h : shouldEscape b mode = false) :
    b < 128 := by
  by_contra hge
  have hb : 128 ≤ b := by omega
  have hal : isAlnum b = false := by
    unfold isAlnum
    have e1 : 'a'.toNat = 97 := rfl
    have e2 : 'z'.toNat = 122 := rfl
    have e3 : 'A'.toNat = 65 := rfl
    have e4 : 'Z'.toNat = 90 := rfl
    have e5 : '0'.toNat = 48 := rfl
    have e6 : '9'.toNat = 57 := rfl
    rw [e1, e2, e3, e4, e5, e6]
    simp only [Bool.or_eq_false_iff, Bool.and_eq_false_iff, decide_eq_false_iff_not]
    omega
  have hm : ∀ l : List Nat, (∀ x ∈ l, x < 128) → b ∉ l := by
    intro l hl hbl
    have := hl b hbl
    omega
  have m1 := hm (codes "!$&'()*+,;=:[]<>\"") (by decide)
  have m2 := hm (codes "-_.~") (by decide)
  have m3 := hm (codes "$&+,/:;=?@") (by decide)
  have m4 := hm (codes "!()*") (by decide)
  unfold shouldEscape at h
  simp [hal, m1, m2, m3, m4] at h

theorem upperhex_ne (k : Nat) : upperhex k ≠ '?' ∧ upperhex k ≠ '#' ∧ upperhex k ≠ '%' := by
  by_cases hk : k < 16
  · have key : ∀ k < 16, upperhex k ≠ '?' ∧ upperhex k ≠ '#' ∧ upperhex k ≠ '%' := by decide!
    exact key k hk
  · have : upperhex k = '0' := by
      unfold upperhex
      rw [List.getD_eq_default]
      simp only [not_lt] at hk
      exact hk
    rw [this]
    decide

theorem ofNat_path_ne (b : Nat) (h : shouldEscape b encodePath = false) :
    Char.ofNat b ≠ '?' ∧ Char.ofNat b ≠ '#' := by
  have key : ∀ b < 128, shouldEscape b encodePath = false →
      Char.ofNat b ≠ '?' ∧ Char.ofNat b ≠ '#' := by decide!
  exact key b (shouldEscape_false_lt b _ h) h

theorem escape_path_chars (s : Bytes) : ∀ c ∈ escape encodePath s, c ≠ '?' ∧ c ≠ '#' := by
  induction s with
  | nil => simp [escape]
  | cons b bs ih =>
    intro c hc
    rw [escape_cons, List.mem_append] at hc
    rcases hc with hc | hc
    · by_cases hb : shouldEscape b encodePath = true
      · rw [if_pos hb, if_neg (by simp)] at hc
        simp only [List.mem_cons, List.mem_singleton, List.not_mem_nil, or_false] at hc
        rcases hc with rfl | rfl | rfl
        · decide
        · exact ⟨(upperhex_ne _).1, (upperhex_ne _).2.1⟩
        · exact ⟨(upperhex_ne _).1, (upperhex_ne _).2.1⟩
      · rw [if_neg hb] at hc
        simp only [List.mem_singleton] at hc
        subst hc
        exact ofNat_path_ne b (by simpa using hb)
    · exact ih c hc

theorem validEncoded_path_chars (p : Str) (h : validEncoded encodePath p = true) :
    ∀ c ∈ p, c ≠ '?' ∧ c ≠ '#' ∧ ¬ (c.toNat < ' '.toNat ∨ c.toNat = 0x7f) := by
  intro c hc
  unfold validEncoded at h
  rw [List.all_eq_true] at h
  have hv := h c hc
  refine ⟨?_, ?_, ?_⟩
  · rintro rfl; revert hv; decide
  · rintro rfl; revert hv; decide
  · by_cases hpc : c = '%'
    · subst hpc; decide
    · have key : ∀ n < 128, (decide (n ∈ codes "!$&'()*+,;=:@") || decide (n ∈ codes "[]")
          || !shouldEscape n encodePath) = true → ¬ (n < 32 ∨ n = 127) := by decide!
      intro hctl
      have hlt : c.toNat < 128 := by
        have e7 : ' '.toNat = 32 := rfl
        rw [e7] at hctl
        omega
      have hv2 : (decide (c.toNat ∈ codes "!$&'()*+,;=:@") || decide (c.toNat ∈ codes "[]")
          || !shouldEscape c.toNat encodePath) = true := by
        simpa [hpc] using hv
      exact key c.toNat hlt hv2 hctl

/-- The escaped path of any URL holds neither `?` nor `#`. -/
theorem EscapedPath_chars (u : URL) : ∀ c ∈ u.EscapedPath, c ≠ '?' ∧ c ≠ '#' := by
  intro c hc
  unfold URL.EscapedPath at hc
  split at hc
  · rename_i hcond
    have := validEncoded_path_chars u.RawPath hcond.2.1 c hc
    exact ⟨this.1, this.2.1⟩
  · split at hc
    · simp only [List.mem_singleton] at hc
      subst hc
      decide
    · exact escape_path_chars u.Path c hc

/-! ## Lemmas: the query of a URL text that is parsed again -/

theorem Cut_of_not_mem (s : Str) (sep : Char) (h : sep ∉ s) : Cut s sep = (s, []) := by
  have h1 : s.takeWhile (fun c => c != sep) = s := by
    rw [List.takeWhile_eq_self_iff]
    intro c hc
    have : c ≠ sep := fun he => h (he ▸ hc)
    simpa using this
  have h2 : s.dropWhile (fun c => c != sep) = [] := by
    rw [List.dropWhile_eq_nil_iff]
    intro c hc
    have : c ≠ sep := fun he => h (he ▸ hc)
    simpa using this
  simp only [Cut, h1, h2, List.drop_nil]

theorem Cut_sep_cons (s : Str) (sep : Char) : Cut (sep :: s) sep = ([], s) := by
  simp [Cut, List.takeWhile_cons, List.dropWhile_cons]

theorem HasSuffix_singleton (s : Str) (c : Char) :
    HasSuffix s [c] = true ↔ s.getLast? = some c := by
  unfold HasSuffix
  rw [← List.head?_reverse]
  cases s.reverse with
  | nil => simp
  | cons d ds =>
    simp only [List.reverse_singleton, List.isPrefixOf_cons₂, List.isPrefixOf_nil_left,
      Bool.and_true, beq_iff_eq, List.head?_cons, Option.some.injEq]
    exact eq_comm

theorem queryForced_false_of_count (s : Str) (h : s.count '?' ≠ 1) : queryForced s = false := by
  unfold queryForced
  simp [h]

/-- The query that `parse` reads from an escaped path followed by `?` and a
query is that query. -/
theorem queryPart_append (ep q : Str) (b : Bool) (hep : '?' ∉ ep) :
    queryPart (ep ++ (if b = true ∨ q ≠ [] then '?' :: q else [])) = q := by
  have hc0 : ep.count '?' = 0 := List.count_eq_zero.mpr hep
  by_cases hQ : b = true ∨ q ≠ []
  · rw [if_pos hQ]
    unfold queryPart
    by_cases hf : queryForced (ep ++ '?' :: q) = true
    · rw [if_pos hf]
      unfold queryForced at hf
      simp only [Bool.and_eq_true, decide_eq_true_eq] at hf
      obtain ⟨hsuf, hcnt⟩ := hf
      rw [List.count_append, hc0, List.count_cons_self] at hcnt
      have hq0 : q.count '?' = 0 := by omega
      by_contra hne
      have hqne : q ≠ [] := fun h => hne h.symm
      rw [HasSuffix_singleton, List.getLast?_eq_some_iff] at hsuf
      obtain ⟨ys, hys⟩ := hsuf
      have hmem : '?' ∈ q := by
        obtain ⟨zs, hzs⟩ : ∃ zs, q = zs ++ ['?'] := by
          have hrev := congrArg List.reverse hys
          simp only [List.reverse_append, List.reverse_cons, List.reverse_nil, List.nil_append,
            List.singleton_append, List.append_assoc] at hrev
          cases hqr : q.reverse with
          | nil => exact absurd (List.reverse_eq_nil_iff.mp hqr) hqne
          | cons z zs =>
            rw [hqr] at hrev
            simp only [List.cons_append, List.cons.injEq] at hrev
            refine ⟨zs.reverse, ?_⟩
            have := congrArg List.reverse hqr
            rw [List.reverse_reverse] at this
            rw [this, hrev.1]
            simp
        rw [hzs]
        simp
      exact (List.count_eq_zero.mp hq0) hmem
    · rw [if_neg hf, Cut_append '?' ep _ (fun c hc he => hep (he ▸ hc)), Cut_sep_cons]
  · rw [if_neg hQ, List.append_nil]
    have hq : q = [] := by
      by_contra hne
      exact hQ (Or.inr hne)
    unfold queryPart
    rw [queryForced_false_of_count ep (by omega), Cut_of_not_mem ep '?' hep, hq]
    rfl

/-- The URL read back from the text of a URL of shape `scheme://host/...`
whose query holds no `#` has the same query. -/
theorem reparse_query (sch h : Str) (u u2 : URL) (hs : validScheme sch = true)
    (hh : validHost h = true) (hu : HierURL sch h u) (hq : '#' ∉ u.RawQuery)
    (hP : Parse u.String = some u2) : u2.RawQuery = u.RawQuery := by
  have hep := EscapedPath_head u hu.2.2.2.2.2.1 hu.2.2.2.2.2.2
  have hchars := EscapedPath_chars u
  rw [String_hier sch h u hs hh hu] at hP
  have hhead : (u.EscapedPath
      ++ ((if u.ForceQuery = true ∨ u.RawQuery ≠ [] then '?' :: u.RawQuery else [])
      ++ (if u.Fragment ≠ [] then '#' :: u.EscapedFragment else []))).head? = some '/' := by
    cases he : u.EscapedPath with
    | nil => rw [he] at hep; simp at hep
    | cons c cs => rw [he] at hep; simpa using hep
  obtain ⟨_, _, _, _, _, hrq, _⟩ := Parse_hier sch h _ u2 hs hh hhead hP
  rw [hrq]
  have hX : ∀ c ∈ u.EscapedPath
      ++ (if u.ForceQuery = true ∨ u.RawQuery ≠ [] then '?' :: u.RawQuery else []), c ≠ '#' := by
    intro c hc
    rw [List.mem_append] at hc
    rcases hc with hc | hc
    · exact (hchars c hc).2
    · split at hc
      · simp only [List.mem_cons] at hc
        rcases hc with rfl | hc
        · decide
        · exact fun he => hq (he ▸ hc)
      · simp at hc
  have hcut : (Cut (u.EscapedPath
      ++ ((if u.ForceQuery = true ∨ u.RawQuery ≠ [] then '?' :: u.RawQuery else [])
      ++ (if u.Fragment ≠ [] then '#' :: u.EscapedFragment else []))) '#').1
      = u.EscapedPath
        ++ (if u.ForceQuery = true ∨ u.RawQuery ≠ [] then '?' :: u.RawQuery else []) := by
    rw [← List.append_assoc, Cut_append '#' _ _ hX]
    by_cases hF : u.Fragment ≠ []
    · rw [if_pos hF, Cut_sep_cons]; simp
    · rw [if_neg hF]; simp [Cut]
  rw [hcut]
  exact queryPart_append u.EscapedPath u.RawQuery u.ForceQuery (fun hm => (hchars '?' hm).1 rfl)

/-! ## Lemmas: hints that are valid encoded paths -/

theorem unescape_nil_of_nil (mode : encoding) (p : Str) (h : unescape mode p = some []) :
    p = [] := by
  cases p with
  | nil => rfl
  | cons c cs =>
    exfalso
    rw [unescape_cons] at h
    split at h
    · split at h
      · split at h
        · simp at h
        · split at h
          · simp at h
          · split at h
            · simp at h
            · cases hr : unescape mode _ with
              | none => rw [hr] at h; simp at h
              | some t => rw [hr] at h; simp at h
      · simp at h
    · split at h
      · cases hr : unescape mode cs with
        | none => rw [hr] at h; simp at h
        | some t => rw [hr] at h; simp at h
      · split at h
        · simp at h
        · cases hr : unescape mode cs with
          | none => rw [hr] at h; simp at h
          | some t =>
            rw [hr] at h
            simp only [Option.map_some', Option.some.injEq, List.append_eq_nil] at h
            have : utf8EncodeChar c ≠ [] := by
              unfold utf8EncodeChar
              simp only
              split
              · simp
              · split
                · simp
                · split <;> simp
            exact this h.1

/-- The escaped path of a URL whose path was set from a valid encoded text is
that text. -/
theorem EscapedPath_of_valid (u : URL) (p : Str) (hv : validEncoded encodePath p = true)
    (hu : unescape encodePath p = some u.Path)
    (hr : u.RawPath = if p = escape encodePath u.Path then [] else p)
    (hh : u.Path.head? = some '/'.toNat) : u.EscapedPath = p := by
  unfold URL.EscapedPath
  by_cases he : p = escape encodePath u.Path
  · rw [if_pos he] at hr
    rw [if_neg (by simp [hr])]
    have hstar : u.Path ≠ ['*'.toNat] := by
      intro hs
      rw [hs] at hh
      revert hh
      decide
    rw [if_neg hstar]
    exact he.symm
  · rw [if_neg he] at hr
    have hpne : p ≠ [] := by
      intro hn
      rw [hn] at hu
      have : u.Path = [] := by
        have h0 : unescape encodePath [] = some [] := rfl
        rw [h0] at hu
        exact (Option.some.inj hu).symm
      rw [this] at hh
      simp at hh
    rw [if_pos ⟨by rw [hr]; exact hpne, by rw [hr]; exact hv, by rw [hr]; exact hu⟩]
    exact hr

/-- `url.Parse` on `scheme://host` followed by a valid encoded rooted path. -/
theorem Parse_plain (sch h tail : Str) (hb path : Bytes) (hs : validScheme sch = true)
    (hh : validHost h = true) (hph : parseHost h = some hb) (ht : tail.head? = some '/')
    (hv : validEncoded encodePath tail = true) (hu : unescape encodePath tail = some path) :
    Parse (sch ++ ':' :: '/' :: '/' :: (h ++ tail))
      = some { URL.zero with Scheme := sch, Host := hb, Path := path,
                             RawPath := if tail = escape encodePath path then [] else tail } := by
  obtain ⟨_, hs2, _⟩ := validScheme_facts sch hs
  have hhf := validHost_facts h hh
  have hvc := validEncoded_path_chars tail hv
  have hnh : ∀ c ∈ sch ++ ':' :: '/' :: '/' :: (h ++ tail), c ≠ '#' := by
    intro c hc
    simp only [List.mem_append, List.mem_cons] at hc
    rcases hc with hc | rfl | rfl | rfl | hc | hc
    · exact (schemeClass_facts c (hs2 c hc)).2.2.2.1
    · decide
    · decide
    · decide
    · exact (hhf c hc).2.2.2.1
    · exact (hvc c hc).2.1
  have hcut : Cut (sch ++ ':' :: '/' :: '/' :: (h ++ tail)) '#'
      = (sch ++ ':' :: '/' :: '/' :: (h ++ tail), []) :=
    Cut_of_not_mem _ '#' (fun hm => hnh '#' hm rfl)
  have hq : '?' ∉ tail := fun hm => (hvc '?' hm).1 rfl
  have hqf : queryForced tail = false :=
    queryForced_false_of_count tail (by rw [List.count_eq_zero.mpr hq]; omega)
  have hpp : pathPart tail = tail := by
    unfold pathPart
    rw [hqf, Cut_of_not_mem tail '?' hq]
    rfl
  have hqp : queryPart tail = [] := by
    unfold queryPart
    rw [hqf, Cut_of_not_mem tail '?' hq]
    rfl
  have hctl : stringContainsCTLByte tail = false :=
    ctl_false_of_forall tail (fun c hc => (hvc c hc).2.2)
  unfold Parse
  rw [hcut]
  simp only
  rw [parseNoFragment_hier sch h tail hs hh ht, hctl, hph, hpp, hqp, hqf]
  simp [URL.setPath, hu, URL.zero]

/-- The text put on the prefetch list for a hint whose URL text is
`scheme://host` followed by a valid encoded rooted path. -/
theorem resolve_plain (r : Request) (object tail : Str)
    (hn : newPath r object = r.URL.Scheme ++ ':' :: '/' :: '/' :: (r.URL.Host ++ tail))
    (hs : validScheme r.URL.Scheme = true) (hh : validHost r.URL.Host = true)
    (hph : (parseHost r.URL.Host).isSome = true) (ht : tail.head? = some '/')
    (hv : validEncoded encodePath tail = true) (hu : (unescape encodePath tail).isSome = true) :
    resolve r object = some (r.URL.Scheme ++ "://".toList ++ r.URL.Host ++ tail
      ++ (if r.URL.RawQuery = [] then [] else '?' :: r.URL.RawQuery)) := by
  obtain ⟨hb, hhb⟩ := Option.isSome_iff_exists.mp hph
  obtain ⟨path, hpath⟩ := Option.isSome_iff_exists.mp hu
  have hP := Parse_plain _ _ tail hb path hs hh hhb ht hv hpath
  have hH := (Parse_hier _ _ tail _ hs hh ht hP).1
  unfold resolve resolveURL
  rw [hn, hP]
  simp only [Option.map_some']
  rw [String_hier r.URL.Scheme r.URL.Host _ hs hh (HierURL_withQuery _ _ _ _ hH)]
  rw [EscapedPath_of_valid _ tail hv hpath rfl (unescape_path_head tail path ht hpath)]
  by_cases hq : r.URL.RawQuery = []
  · simp [hq, URL.zero]
  · simp [hq, URL.zero]

/-! ## Lemmas: `path.Dir` removes the last element -/

theorem cleanLoop_nil (rooted b : Bool) (out : List Char) (dotdot : Nat) :
    cleanLoop rooted [] b out dotdot = out := by
  cases b <;> rfl

theorem cleanLoop_snoc_slash (rooted : Bool) (n : Nat) :
    ∀ (xs : List Char) (b : Bool) (out : List Char) (dotdot : Nat), xs.length ≤ n →
      cleanLoop rooted (xs ++ ['/']) b out dotdot = cleanLoop rooted xs b out dotdot := by
  induction n with
  | zero =>
    intro xs b out dotdot hn
    have : xs = [] := List.length_eq_zero.mp (Nat.le_zero.mp hn)
    subst this
    cases b
    · rw [List.nil_append, cleanLoop_cons_false, if_pos rfl]
    · rw [List.nil_append, cleanLoop_cons_true, if_pos rfl, cleanLoop_nil, cleanLoop_nil]
  | succ n ih =>
    intro xs b out dotdot hn
    cases xs with
    | nil =>
      cases b
      · rw [List.nil_append, cleanLoop_cons_false, if_pos rfl]
      · rw [List.nil_append, cleanLoop_cons_true, if_pos rfl, cleanLoop_nil, cleanLoop_nil]
    | cons c rest =>
      have hr : rest.length ≤ n := by simpa using hn
      cases b with
      | true =>
        rw [List.cons_append, cleanLoop_cons_true, cleanLoop_cons_true,
          ih rest false out dotdot hr, ih rest true (c :: out) dotdot hr]
      | false =>
        rw [List.cons_append, cleanLoop_cons_false, cleanLoop_cons_false]
        cases rest with
        | nil =>
          by_cases h1 : c = '/'
          · simp [h1, cleanLoop_cons_false, cleanLoop_nil]
          · by_cases h2 : c = '.'
            · simp [h2, cleanLoop_cons_false, cleanLoop_nil]
            · simp [h1, h2, cleanLoop_cons_true, cleanLoop_nil]
        | cons d rest2 =>
          have hr2 : rest2.length ≤ n := by
            simp only [List.length_cons] at hr; omega
          have e1 := ih (d :: rest2) false out dotdot hr
          have e2 : ∀ o dd, cleanLoop rooted (rest2 ++ ['/']) false o dd
              = cleanLoop rooted rest2 false o dd := fun o dd => ih rest2 false o dd hr2
          have e3 : ∀ o, cleanLoop rooted (d :: rest2 ++ ['/']) true o dotdot
              = cleanLoop rooted (d :: rest2) true o dotdot := fun o => ih (d :: rest2) true o dotdot hr
          have hc2 : (rest2 ++ ['/'] = [] ∨ (rest2 ++ ['/']).head? = some '/')
              ↔ (rest2 = [] ∨ rest2.head? = some '/') := by
            cases rest2 with
            | nil => simp
            | cons e es => simp
          simp only [List.cons_append, List.head?_cons, List.tail_cons, hc2, e2]
          rw [← List.cons_append, e1, e3]
          simp

theorem Clean_snoc_slash (d : Str) (hd : d ≠ []) : Clean (d ++ ['/']) = Clean d := by
  cases d with
  | nil => exact absurd rfl hd
  | cons c rest =>
    unfold Clean
    simp only [List.cons_append]
    rw [cleanLoop_snoc_slash true rest.length rest false ['/'] 1 (le_refl _)]
    rw [← List.cons_append,
      cleanLoop_snoc_slash false (c :: rest).length (c :: rest) false [] 0 (le_refl _)]

theorem splitDir_append (d f : Str) (hf : '/' ∉ f) : splitDir (d ++ '/' :: f) = d ++ ['/'] := by
  unfold splitDir
  have e : (d ++ '/' :: f).reverse = f.reverse ++ ('/' :: d.reverse) := by simp
  rw [e, dropWhile_ne_append '/' f.reverse _
    (fun c hc he => hf (he ▸ List.mem_reverse.mp hc))]
  simp [List.dropWhile_cons]

/-- The directory of `d/f`, where `f` holds no slash and `d` is not empty, is
`d` cleaned: the path without its final element. -/
theorem Dir_append (d f : Str) (hd : d ≠ []) (hf : '/' ∉ f) : Dir (d ++ '/' :: f) = Clean d := by
  unfold Dir
  rw [splitDir_append d f hf, Clean_snoc_slash d hd]

/-! ## Lemmas: the text of a resolved URL parses again -/

/-- `url.Parse` on `scheme://host/...`, as one equation. -/
theorem Parse_hier_eq (sch h tail : Str) (hs : validScheme sch = true)
    (hh : validHost h = true) (ht : tail.head? = some '/') :
    Parse (sch ++ ':' :: '/' :: '/' :: (h ++ tail)) =
      if stringContainsCTLByte (Cut tail '#').1 then none
      else (parseHost h).bind (fun hb =>
        (URL.setPath { URL.zero with Scheme := sch, Host := hb,
                                     ForceQuery := queryForced (Cut tail '#').1,
                                     RawQuery := queryPart (Cut tail '#').1 }
            (pathPart (Cut tail '#').1)).bind (fun url =>
          if (Cut tail '#').2 = [] then some url else URL.setFragment url (Cut tail '#').2)) := by
  obtain ⟨_, hs2, _⟩ := validScheme_facts sch hs
  have hhf := validHost_facts h hh
  have hnh : ∀ c ∈ sch ++ ':' :: '/' :: '/' :: h, c ≠ '#' := by
    intro c hc
    simp only [List.mem_append, List.mem_cons] at hc
    rcases hc with hc | rfl | rfl | rfl | hc
    · exact (schemeClass_facts c (hs2 c hc)).2.2.2.1
    · decide
    · decide
    · decide
    · exact (hhf c hc).2.2.2.1
  have e : sch ++ ':' :: '/' :: '/' :: (h ++ tail) = (sch ++ ':' :: '/' :: '/' :: h) ++ tail := by
    simp
  have hcut : Cut (sch ++ ':' :: '/' :: '/' :: (h ++ tail)) '#'
      = (sch ++ ':' :: '/' :: '/' :: (h ++ (Cut tail '#').1), (Cut tail '#').2) := by
    rw [e, Cut_append _ _ _ hnh]; simp
  have hph : (Cut tail '#').1.head? = some '/' := Cut_fst_head '#' tail '/' ht (by decide)
  unfold Parse
  rw [hcut]
  simp only
  rw [parseNoFragment_hier sch h _ hs hh hph]
  by_cases hc : stringContainsCTLByte (Cut tail '#').1 = true
  · simp [hc]
  · simp only [hc, if_false]
    cases parseHost h with
    | none => rfl
    | some hb =>
      simp only [Option.some_bind]
      cases URL.setPath _ (pathPart (Cut tail '#').1) with
      | none => rfl
      | some v => rfl

theorem ishex_upperhex (k : Nat) : ishex (upperhex k) = true := by
  by_cases hk : k < 16
  · have key : ∀ k < 16, ishex (upperhex k) = true := by decide!
    exact key k hk
  · have : upperhex k = '0' := by
      unfold upperhex
      rw [List.getD_eq_default]
      simp only [not_lt] at hk
      exact hk
    rw [this]
    decide

theorem ofNat_plain (b : Nat) (mode : encoding) (h : shouldEscape b mode = false) :
    Char.ofNat b ≠ '%' ∧ ¬ ((Char.ofNat b).toNat < ' '.toNat ∨ (Char.ofNat b).toNat = 0x7f) := by
  have key : ∀ m : encoding, ∀ b < 128, shouldEscape b m = false →
      Char.ofNat b ≠ '%' ∧ ¬ ((Char.ofNat b).toNat < 32 ∨ (Char.ofNat b).toNat = 127) := by
    intro m
    cases m <;> decide!
  exact key mode b (shouldEscape_false_lt b mode h) h

/-- Escaped text can be unescaped, in the path and the fragment. -/
theorem unescape_escape_isSome (mode : encoding) (hm : mode = encodePath ∨ mode = encodeFragment)
    (s : Bytes) : (unescape mode (escape mode s)).isSome = true := by
  have hnh : ¬ (mode = encodeHost) := by rcases hm with h | h <;> rw [h] <;> decide
  have hnz : ¬ (mode = encodeZone) := by rcases hm with h | h <;> rw [h] <;> decide
  have hnq : ¬ (mode = encodeQueryComponent) := by rcases hm with h | h <;> rw [h] <;> decide
  induction s with
  | nil => rfl
  | cons b bs ih =>
    rw [escape_cons]
    by_cases hb : shouldEscape b mode = true
    · rw [if_pos hb, if_neg (fun hc => hnq hc.2)]
      simp only [List.cons_append, List.nil_append]
      rw [unescape_cons, if_pos rfl]
      simp only [ishex_upperhex, Bool.not_true, Bool.or_self, Bool.false_eq_true, if_false]
      rw [if_neg (fun hc => hnh hc.1), if_neg (fun hc => hnz hc.1)]
      cases hr : unescape mode (escape mode bs) with
      | none => rw [hr] at ih; simp at ih
      | some t => rfl
    · rw [if_neg hb]
      have hb2 : shouldEscape b mode = false := by simpa using hb
      simp only [List.cons_append, List.nil_append]
      rw [unescape_cons_plain mode _ _ (ofNat_plain b mode hb2).1 (fun hc => hnq hc.2)
        (fun hc => by rcases hc.1 with h | h; exact hnh h; exact hnz h)]
      cases hr : unescape mode (escape mode bs) with
      | none => rw [hr] at ih; simp at ih
      | some t => rfl

theorem escape_no_ctl (mode : encoding) (s : Bytes) :
    stringContainsCTLByte (escape mode s) = false := by
  apply ctl_false_of_forall
  induction s with
  | nil => simp [escape]
  | cons b bs ih =>
    intro c hc
    rw [escape_cons, List.mem_append] at hc
    rcases hc with hc | hc
    · by_cases hb : shouldEscape b mode = true
      · rw [if_pos hb] at hc
        have key : ∀ k < 16, ¬ ((upperhex k).toNat < 32 ∨ (upperhex k).toNat = 127) := by decide!
        split at hc
        · simp only [List.mem_singleton] at hc
          subst hc; decide
        · simp only [List.mem_cons, List.mem_singleton, List.not_mem_nil, or_false] at hc
          rcases hc with rfl | rfl | rfl
          · decide
          · exact key _ (Nat.mod_lt _ (by decide))
          · exact key _ (Nat.mod_lt _ (by decide))
      · rw [if_neg hb] at hc
        simp only [List.mem_singleton] at hc
        subst hc
        exact (ofNat_plain b mode (by simpa using hb)).2
    · exact ih c hc

theorem EscapedPath_no_ctl (u : URL) : stringContainsCTLByte u.EscapedPath = false := by
  unfold URL.EscapedPath
  split
  · rename_i hcond
    exact ctl_false_of_forall _ (fun c hc => (validEncoded_path_chars u.RawPath hcond.2.1 c hc).2.2)
  · split
    · decide
    · exact escape_no_ctl _ _

theorem EscapedPath_unescape (u : URL) : (unescape encodePath u.EscapedPath).isSome = true := by
  unfold URL.EscapedPath
  split
  · rename_i hcond
    rw [hcond.2.2]; rfl
  · split
    · decide
    · exact unescape_escape_isSome encodePath (Or.inl rfl) _

theorem EscapedFragment_unescape (u : URL) :
    (unescape encodeFragment u.EscapedFragment).isSome = true := by
  unfold URL.EscapedFragment
  split
  · rename_i hcond
    rw [hcond.2.2]; rfl
  · exact unescape_escape_isSome encodeFragment (Or.inr rfl) _

theorem queryForced_append (ep q : Str) (hep : '?' ∉ ep)
    (hf : queryForced (ep ++ '?' :: q) = true) : q = [] := by
  have hc0 : ep.count '?' = 0 := List.count_eq_zero.mpr hep
  unfold queryForced at hf
  simp only [Bool.and_eq_true, decide_eq_true_eq] at hf
  obtain ⟨hsuf, hcnt⟩ := hf
  rw [List.count_append, hc0, List.count_cons_self] at hcnt
  have hq0 : q.count '?' = 0 := by omega
  by_contra hqne
  rw [HasSuffix_singleton, List.getLast?_eq_some_iff] at hsuf
  obtain ⟨ys, hys⟩ := hsuf
  have hmem : '?' ∈ q := by
    obtain ⟨zs, hzs⟩ : ∃ zs, q = zs ++ ['?'] := by
      have hrev := congrArg List.reverse hys
      simp only [List.reverse_append, List.reverse_cons, List.reverse_nil, List.nil_append,
        List.singleton_append, List.append_assoc] at hrev
      cases hqr : q.reverse with
      | nil => exact absurd (List.reverse_eq_nil_iff.mp hqr) hqne
      | cons z zs =>
        rw [hqr] at hrev
        simp only [List.cons_append, List.cons.injEq] at hrev
        refine ⟨zs.reverse, ?_⟩
        have := congrArg List.reverse hqr
        rw [List.reverse_reverse] at this
        rw [this, hrev.1]
        simp
    rw [hzs]
    simp
  exact (List.count_eq_zero.mp hq0) hmem

/-- The path that `parse` reads from an escaped path followed by `?` and a
query is that escaped path. -/
theorem pathPart_append (ep q : Str) (b : Bool) (hep : '?' ∉ ep) :
    pathPart (ep ++ (if b = true ∨ q ≠ [] then '?' :: q else [])) = ep := by
  by_cases hQ : b = true ∨ q ≠ []
  · rw [if_pos hQ]
    unfold pathPart
    by_cases hf : queryForced (ep ++ '?' :: q) = true
    · rw [if_pos hf]
      have hq := queryForced_append ep q hep hf
      subst hq
      simp
    · rw [if_neg hf, Cut_append '?' ep _ (fun c hc he => hep (he ▸ hc)), Cut_sep_cons]
      simp
  · rw [if_neg hQ, List.append_nil]
    unfold pathPart
    have hc0 : ep.count '?' = 0 := List.count_eq_zero.mpr hep
    rw [queryForced_false_of_count ep (by omega), Cut_of_not_mem ep '?' hep]
    rfl

/-- The text of a URL of shape `scheme://host/...` with a valid query parses. -/
theorem reparse_isSome (sch h : Str) (u : URL) (hs : validScheme sch = true)
    (hh : validHost h = true) (hu : HierURL sch h u)
    (hhost : parseHost h = some (h.map Char.toNat)) (hq : validQuery u.RawQuery = true) :
    (Parse u.String).isSome = true := by
  have hep := EscapedPath_head u hu.2.2.2.2.2.1 hu.2.2.2.2.2.2
  have hchars := EscapedPath_chars u
  have hqc : ∀ c ∈ u.RawQuery, c ≠ '#' ∧ ¬ (c.toNat < ' '.toNat ∨ c.toNat = 0x7f) := by
    intro c hc
    unfold validQuery at hq
    rw [List.all_eq_true] at hq
    have := hq c hc
    simpa using this
  rw [String_hier sch h u hs hh hu]
  have hhead : (u.EscapedPath
      ++ ((if u.ForceQuery = true ∨ u.RawQuery ≠ [] then '?' :: u.RawQuery else [])
      ++ (if u.Fragment ≠ [] then '#' :: u.EscapedFragment else []))).head? = some '/' := by
    cases he : u.EscapedPath with
    | nil => rw [he] at hep; simp at hep
    | cons c cs => rw [he] at hep; simpa using hep
  rw [Parse_hier_eq sch h _ hs hh hhead]
  have hX : ∀ c ∈ u.EscapedPath
      ++ (if u.ForceQuery = true ∨ u.RawQuery ≠ [] then '?' :: u.RawQuery else []), c ≠ '#' := by
    intro c hc
    rw [List.mem_append] at hc
    rcases hc with hc | hc
    · exact (hchars c hc).2
    · split at hc
      · simp only [List.mem_cons] at hc
        rcases hc with rfl | hc
        · decide
        · exact (hqc c hc).1
      · simp at hc
  have hcut : Cut (u.EscapedPath
      ++ ((if u.ForceQuery = true ∨ u.RawQuery ≠ [] then '?' :: u.RawQuery else [])
      ++ (if u.Fragment ≠ [] then '#' :: u.EscapedFragment else []))) '#'
      = (u.EscapedPath
          ++ (if u.ForceQuery = true ∨ u.RawQuery ≠ [] then '?' :: u.RawQuery else []),
         if u.Fragment ≠ [] then u.EscapedFragment else []) := by
    rw [← List.append_assoc, Cut_append '#' _ _ hX]
    by_cases hF : u.Fragment ≠ []
    · rw [if_pos hF, if_pos hF, Cut_sep_cons]; simp
    · rw [if_neg hF, if_neg hF]; simp [Cut]
  rw [hcut]
  simp only
  have hctl : stringContainsCTLByte (u.EscapedPath
      ++ (if u.ForceQuery = true ∨ u.RawQuery ≠ [] then '?' :: u.RawQuery else [])) = false := by
    rw [ctl_append, EscapedPath_no_ctl]
    apply ctl_false_of_forall
    intro c hc
    split at hc
    · simp only [List.mem_cons] at hc
      rcases hc with rfl | hc
      · decide
      · exact (hqc c hc).2
    · simp at hc
  rw [hctl, hhost, pathPart_append u.EscapedPath u.RawQuery u.ForceQuery
    (fun hm => (hchars '?' hm).1 rfl)]
  simp only [Bool.false_eq_true, if_false, Option.some_bind]
  obtain ⟨path, hpath⟩ := Option.isSome_iff_exists.mp (EscapedPath_unescape u)
  simp only [URL.setPath, hpath, Option.map_some', Option.some_bind]
  by_cases hF : u.Fragment ≠ []
  · obtain ⟨frag, hfrag⟩ := Option.isSome_iff_exists.mp (EscapedFragment_unescape u)
    by_cases hef : u.EscapedFragment = []
    · simp [hF, hef]
    · simp [hF, hef, URL.setFragment, hfrag]
  · simp [hF]

theorem Parse_hier_host (sch h tail : Str) (u : URL) (hs : validScheme sch = true)
    (hh : validHost h = true) (ht : tail.head? = some '/')
    (hP : Parse (sch ++ ':' :: '/' :: '/' :: (h ++ tail)) = some u) :
    parseHost h = some (h.map Char.toNat) := by
  rw [Parse_hier_eq sch h tail hs hh ht] at hP
  cases hph : parseHost h with
  | none =>
    rw [hph] at hP
    split at hP <;> simp at hP
  | some hb => rw [parseHost_valid h hh hb hph]

/-- For a well-formed request, every text on the prefetch list parses again. -/
theorem resolve_reparses (r : Request) (object s : Str) (hs : validScheme r.URL.Scheme = true)
    (hh : validHost r.URL.Host = true) (hp : r.URL.Path.head? = some '/')
    (hq : validQuery r.URL.RawQuery = true) (hr : resolve r object = some s) :
    Parse s ≠ none := by
  obtain ⟨tail, ht, hn⟩ := newPath_shape r object hp
  unfold resolve at hr
  cases hu : resolveURL r object with
  | none => rw [hu] at hr; simp at hr
  | some u =>
    rw [hu] at hr
    simp only [Option.map_some', Option.some.injEq] at hr
    subst hr
    have hH := (resolve_hier r object hs hh hp).1 u hu
    have hhost : parseHost r.URL.Host = some (r.URL.Host.map Char.toNat) := by
      unfold resolveURL at hu
      rw [hn] at hu
      cases hP : Parse (r.URL.Scheme ++ ':' :: '/' :: '/' :: (r.URL.Host ++ tail)) with
      | none => rw [hP] at hu; simp at hu
      | some v => exact Parse_hier_host _ _ tail v hs hh ht hP
    have hrq : u.RawQuery = r.URL.RawQuery := by
      unfold resolveURL at hu
      cases hP : Parse (newPath r object) with
      | none => rw [hP] at hu; simp at hu
      | some v =>
        rw [hP] at hu
        simp only [Option.map_some', Option.some.injEq] at hu
        rw [← hu]
    have := reparse_isSome _ _ u hs hh hH hhost (by rw [hrq]; exact hq)
    intro hnone
    rw [hnone] at this
    simp at this

theorem prefetchListOf_reparses (r : Request) (resp : Response)
    (hs : validScheme r.URL.Scheme = true) (hh : validHost r.URL.Host = true)
    (hp : r.URL.Path.head? = some '/') (hq : validQuery r.URL.RawQuery = true) :
    ∀ s ∈ prefetchListOf r resp, Parse s ≠ none := by
  intro s hs1
  unfold prefetchListOf at hs1
  rw [buildPrefetchList_eq, List.mem_filterMap] at hs1
  obtain ⟨object, _, hres⟩ := hs1
  exact resolve_reparses (withPrefetchEnabled r) object s hs hh hp hq hres
/-! ## Lemmas: the query of any resolved URL that is parsed again -/

/-- C1, amended (fetch budget). For every `GET` invocation whose primary send
succeeds and in which no follow-up send fails in transport while diagnostics
are on: (1) if the `prefetchList` holds `n` URLs that `url.Parse` accepts
again, the number of follow-up requests sent is `min n 25`, whatever the status
of each response (and, with diagnostics off, whether or not a send fails), and
the handler returns; (2) the URLs of the list are all accepted again when the
request has a well-formed scheme, host and query and a path that begins with
`/`, so that the count is `min n 25` for every such request. -/
theorem C1_fetch_budget (origin : Backend) (r : Request) (resp : Response)
    (hGET : r.Method = "GET".toList) (h0 : origin 0 = SendResult.ok resp)
    (hOk : debugOn r = false ∨ ∀ k, ∃ resp, origin k = SendResult.ok resp) :
    ((∀ s ∈ prefetchListOf r resp, Parse s ≠ none) →
        (followUps (handler origin r).1).length = min (prefetchListOf r resp).length 25
          ∧ (handler origin r).2 = Outcome.returned)
      ∧ (validScheme r.URL.Scheme = true → validHost r.URL.Host = true →
          HasPrefix r.URL.Path ['/'] = true → validQuery r.URL.RawQuery = true →
          (followUps (handler origin r).1).length = min (prefetchListOf r resp).length 25
            ∧ (handler origin r).2 = Outcome.returned) := by
  have key : (∀ s ∈ prefetchListOf r resp, Parse s ≠ none) →
      (followUps (handler origin r).1).length = min (prefetchListOf r resp).length 25
        ∧ (handler origin r).2 = Outcome.returned := by
    intro hParse
    obtain ⟨prints, hp, hh⟩ := handler_get_ok origin r resp hGET h0
    obtain ⟨h1, h2⟩ := fetchLoop_count (debugOn r) origin (withPrefetchEnabled r)
      (prefetchListOf r resp) 0 1 hParse hOk
    rw [hh]
    refine ⟨?_, h2⟩
    simp only [followUps, List.filter_append] at h1 ⊢
    rw [filter_eq_nil_of_prints _ isFollowUp_of_isPrint prints hp]
    cases hd : debugOn r <;> simp [hd, Event.isFollowUp, List.filter_cons] at h1 ⊢ <;> exact h1
  refine ⟨key, ?_⟩
  intro hs hh hp hq
  exact key (prefetchListOf_reparses r resp hs hh ((HasPrefix_cons_iff _ _).mp hp) hq)

/-- C1 at a concrete input: thirty hints on the example request, with
diagnostics off. -/
theorem C1_fetch_budget_witness :
    (prefetchListOf exampleRequest (exampleResponse (manyHints 30))).length = 30
      ∧ (followUps (handler (exampleBackend (manyHints 30)) exampleRequest).1).length
        = min (prefetchListOf exampleRequest (exampleResponse (manyHints 30))).length 25
      ∧ (handler (exampleBackend (manyHints 30)) exampleRequest).2 = Outcome.returned :=
  ⟨by decide!,
   (C1_fetch_budget (exampleBackend (manyHints 30)) exampleRequest
    (exampleResponse (manyHints 30)) (by decide!) (by decide!) (Or.inl (by decide!))).2
    (by decide!) (by decide!) (by decide!) (by decide!)⟩

/-- C1 as stated fails: with 26 valid hints the handler sends 25 follow-up
requests, not `min 26 24 = 24`, before it stops. -/
theorem C1_fetch_budget_counterexample :
    (prefetchListOf exampleRequest (exampleResponse (manyHints 26))).length = 26
      ∧ (followUps (handler (exampleBackend (manyHints 26)) exampleRequest).1).length = 25
      ∧ (followUps (handler (exampleBackend (manyHints 26)) exampleRequest).1).length
          ≠ min (prefetchListOf exampleRequest (exampleResponse (manyHints 26))).length 24
      ∧ (handler (exampleBackend (manyHints 26)) exampleRequest).2 = Outcome.returned := by
  decide!

/-- C2 (hint extraction). For every list of values of the prefetch-path header:
the raw hints the handler processes are the comma-separated pieces of every
value, each trimmed, the pieces that are empty after trimming dropped, in
header order and then left to right (1), and the prefetch list is built from
exactly these (2). The pieces of `Split` are the comma-free texts whose
comma-joined concatenation is the value (3); `TrimSpace` removes a run of white
space at each end and leaves a text that neither starts nor ends with white
space (4). `"/a, /b ,/c"` yields `/a`, `/b`, `/c`; `"/a,,/b"` yields `/a`,
`/b`; two header values are taken in order (5). White space added around the
comma-separated pieces of the values never changes the raw hints (6). -/
theorem C2_hint_extraction :
    (∀ vals : List Str,
        rawHints vals
          = vals.flatMap (fun v => ((Split ',' v).map TrimSpace).filter (fun s => s ≠ [])))
      ∧ (∀ (r : Request) (vals : List Str),
          (buildPrefetchList r vals).1 = (rawHints vals).filterMap (resolve r))
      ∧ (∀ v : Str, List.intercalate [','] (Split ',' v) = v ∧ ∀ seg ∈ Split ',' v, ',' ∉ seg)
      ∧ (∀ s : Str, ∃ a b : Str, s = a ++ TrimSpace s ++ b
          ∧ (∀ c ∈ a, isSpace c = true) ∧ (∀ c ∈ b, isSpace c = true)
          ∧ (∀ c, (TrimSpace s).head? = some c → isSpace c = false)
          ∧ (∀ c, (TrimSpace s).getLast? = some c → isSpace c = false))
      ∧ (rawHints ["/a, /b ,/c".toList] = ["/a".toList, "/b".toList, "/c".toList]
          ∧ rawHints ["/a,,/b".toList] = ["/a".toList, "/b".toList]
          ∧ rawHints ["x.ts , y.ts".toList, " ".toList, "/z".toList]
              = ["x.ts".toList, "y.ts".toList, "/z".toList])
      ∧ (∀ vals : List (List (Str × Str × Str)),
          (∀ v ∈ vals, ∀ t ∈ v,
            (∀ c ∈ t.1, isSpace c = true) ∧ ',' ∉ t.2.1 ∧ ∀ c ∈ t.2.2, isSpace c = true) →
          rawHints (vals.map (fun v =>
              List.intercalate [','] (v.map (fun t => t.1 ++ t.2.1 ++ t.2.2))))
            = rawHints (vals.map (fun v => List.intercalate [','] (v.map (fun t => t.2.1))))) := by
  refine ⟨rawHints_eq, buildPrefetchList_eq, fun v => ⟨Split_intercalate ',' v, Split_no_sep ',' v⟩,
    TrimSpace_spec, ⟨by decide!, by decide!, by decide!⟩, ?_⟩
  intro vals h
  rw [rawHints_eq, rawHints_eq]
  induction vals with
  | nil => rfl
  | cons v vs ih =>
    simp only [List.map_cons, List.flatMap_cons]
    rw [hints_of_padded v (h v (List.mem_cons_self _ _)),
      ih (fun w hw => h w (List.mem_cons_of_mem _ hw))]

/-- C2 at a concrete input: `" /a ,\t/b"` against `"/a,/b"`. -/
theorem C2_hint_extraction_witness :
    rawHints ([[(" ".toList, "/a".toList, " ".toList), ("\t".toList, "/b".toList, [])]].map
        (fun v => List.intercalate [','] (v.map (fun t => t.1 ++ t.2.1 ++ t.2.2))))
      = rawHints ([[(" ".toList, "/a".toList, " ".toList), ("\t".toList, "/b".toList, [])]].map
        (fun v => List.intercalate [','] (v.map (fun t => t.2.1)))) :=
  C2_hint_extraction.2.2.2.2.2
    [[(" ".toList, "/a".toList, " ".toList), ("\t".toList, "/b".toList, [])]] (by decide!)

/-- C3, amended (relative hint resolution). For every request with a
well-formed scheme and host that `url.Parse` accepts, whose path begins with `/`
and whose directory `path.Dir(path)` is not the root, and every hint that does
not begin with `/`, such that `<directory>/<hint>` is a valid encoded path (no
`?`, no `#`, no blank, every `%` followed by two hex digits): the resolved URL
is exactly `scheme://host<directory>/<hint>`, followed by `?` and the request's
query when that query is not empty. The directory is the request path without
its final element, lexically cleaned: for a path `d/f`, with `f` free of
slashes and `d` not empty, it is `path.Clean(d)`. -/
theorem C3_relative_hint (r : Request) (object : Str)
    (hs : validScheme r.URL.Scheme = true) (hh : validHost r.URL.Host = true)
    (hph : (parseHost r.URL.Host).isSome = true)
    (hp : HasPrefix r.URL.Path ['/'] = true) (_hroot : Dir r.URL.Path ≠ ['/'])
    (hrel : HasPrefix object ['/'] = false)
    (hv : validEncoded encodePath (Dir r.URL.Path ++ '/' :: object) = true)
    (hu : (unescape encodePath (Dir r.URL.Path ++ '/' :: object)).isSome = true) :
    resolve r object = some (r.URL.Scheme ++ "://".toList ++ r.URL.Host
        ++ Dir r.URL.Path ++ ['/'] ++ object
        ++ (if r.URL.RawQuery = [] then [] else '?' :: r.URL.RawQuery))
      ∧ (∀ d f : Str, r.URL.Path = d ++ '/' :: f → d ≠ [] → '/' ∉ f →
          Dir r.URL.Path = Clean d) := by
  have hn : newPath r object
      = r.URL.Scheme ++ ':' :: '/' :: '/' :: (r.URL.Host ++ (Dir r.URL.Path ++ '/' :: object)) := by
    unfold newPath
    rw [if_neg (by simp [hrel])]
    simp
  have hd := Dir_rooted r.URL.Path ((HasPrefix_cons_iff _ _).mp hp)
  have ht : (Dir r.URL.Path ++ '/' :: object).head? = some '/' := by
    cases hdir : Dir r.URL.Path with
    | nil => rw [hdir] at hd; simp at hd
    | cons c cs => rw [hdir] at hd; simpa using hd
  refine ⟨?_, ?_⟩
  · rw [resolve_plain r object _ hn hs hh hph ht hv hu]
    simp
  · intro d f hpath hdne hf
    rw [hpath]
    exact Dir_append d f hdne hf

/-- C3 at the input of the specification: hint `chunk2.ts` on a request to
`https://example.com/videos/main.m3u8?token=abc`, whose directory is
`/videos`. -/
theorem C3_relative_hint_witness :
    resolve exampleRequest "chunk2.ts".toList
        = some "https://example.com/videos/chunk2.ts?token=abc".toList
      ∧ Dir exampleRequest.URL.Path = Clean "/videos".toList
      ∧ Clean "/videos".toList = "/videos".toList :=
  ⟨((C3_relative_hint exampleRequest "chunk2.ts".toList (by decide!) (by decide!) (by decide!)
      (by decide!) (by decide!) (by decide!) (by decide!) (by decide!)).1).trans (by decide!),
   (C3_relative_hint exampleRequest "chunk2.ts".toList (by decide!) (by decide!) (by decide!)
      (by decide!) (by decide!) (by decide!) (by decide!) (by decide!)).2
      "/videos".toList "main.m3u8".toList (by decide!) (by decide!) (by decide!),
   by decide!⟩

/-- C3 as stated fails: the hint `chunk 2.ts` resolves to
`.../videos/chunk%202.ts?token=abc`, not to `scheme://host<directory>/<hint>`
with the query; and of the hint `seg.ts?part=2` the query is dropped. -/
theorem C3_relative_hint_counterexample :
    resolve exampleRequest "chunk 2.ts".toList
        = some "https://example.com/videos/chunk%202.ts?token=abc".toList
      ∧ resolve exampleRequest "chunk 2.ts".toList
          ≠ some (exampleRequest.URL.Scheme ++ "://".toList ++ exampleRequest.URL.Host
              ++ "/videos".toList ++ ['/'] ++ "chunk 2.ts".toList
              ++ '?' :: exampleRequest.URL.RawQuery)
      ∧ resolve exampleRequest "seg.ts?part=2".toList
          = some "https://example.com/videos/seg.ts?token=abc".toList := by
  decide!

/-- The relative hint `chunk2.ts` on a request for `/main.m3u8`, a path in the
root directory: `path.Dir` returns `/` and the resolved path starts with two
slashes. -/
theorem relative_hint_at_root :
    Dir "/main.m3u8".toList = ['/']
      ∧ resolve { exampleRequest with
            URL := { exampleRequest.URL with Path := "/main.m3u8".toList } } "chunk2.ts".toList
          = some "https://example.com//chunk2.ts?token=abc".toList := by
  decide!

/-- C4, amended (absolute hint resolution). For every request with a
well-formed scheme and host that `url.Parse` accepts, and every hint that begins
with `/` and is a valid encoded path (only characters a URL path may hold
unescaped, so no `?`, no `#`, no blank, and every `%` followed by two hex
digits), the resolved URL is exactly `scheme://host<hint>`, followed by `?` and
the request's query when that query is not empty. -/
theorem C4_absolute_hint (r : Request) (object : Str)
    (hs : validScheme r.URL.Scheme = true) (hh : validHost r.URL.Host = true)
    (hph : (parseHost r.URL.Host).isSome = true)
    (habs : HasPrefix object ['/'] = true)
    (hv : validEncoded encodePath object = true)
    (hu : (unescape encodePath object).isSome = true) :
    resolve r object = some (r.URL.Scheme ++ "://".toList ++ r.URL.Host ++ object
      ++ (if r.URL.RawQuery = [] then [] else '?' :: r.URL.RawQuery)) := by
  have hn : newPath r object
      = r.URL.Scheme ++ ':' :: '/' :: '/' :: (r.URL.Host ++ object) := by
    unfold newPath
    rw [if_pos habs]
    simp
  exact resolve_plain r object object hn hs hh hph ((HasPrefix_cons_iff _ _).mp habs) hv hu

/-- C4 at the input of the specification: hint `/images/x.jpg` on a request to
`https://example.com/videos/main.m3u8?token=abc`. -/
theorem C4_absolute_hint_witness :
    resolve exampleRequest "/images/x.jpg".toList
      = some "https://example.com/images/x.jpg?token=abc".toList :=
  (C4_absolute_hint exampleRequest "/images/x.jpg".toList (by decide!) (by decide!) (by decide!)
    (by decide!) (by decide!) (by decide!)).trans (by decide!)

/-- C4 as stated fails: the hint `/a b` resolves to `.../a%20b?token=abc`, not
to `scheme://host<hint>` with the query; the hint `/100%` does not resolve at
all; and of the hint `/a?x=1#top` the query is dropped and the fragment kept
behind the request's query. -/
theorem C4_absolute_hint_counterexample :
    resolve exampleRequest "/a b".toList = some "https://example.com/a%20b?token=abc".toList
      ∧ resolve exampleRequest "/a b".toList
          ≠ some (exampleRequest.URL.Scheme ++ "://".toList ++ exampleRequest.URL.Host
              ++ "/a b".toList ++ '?' :: exampleRequest.URL.RawQuery)
      ∧ resolve exampleRequest "/100%".toList = none
      ∧ resolve exampleRequest "/a?x=1#top".toList
          = some "https://example.com/a?token=abc#top".toList := by
  decide!

/-- C6, the failing input. Diagnostics on, two hints, the first follow-up send
fails in transport: the handler reads the status of the nil response at line
151 and panics; the second URL, well within the budget, is never requested.
With diagnostics off the same backend gets both requests. -/
theorem C6_followup_error_with_debug_panics :
    (prefetchListOf exampleDebugRequest (exampleResponse "/a,/b".toList)).length = 2
      ∧ (followUps (handler (failingBackend "/a,/b".toList) exampleDebugRequest).1).length = 1
      ∧ (handler (failingBackend "/a,/b".toList) exampleDebugRequest).2 = Outcome.panicked
      ∧ (followUps (handler (failingBackend "/a,/b".toList) exampleRequest).1).length = 2
      ∧ (handler (failingBackend "/a,/b".toList) exampleRequest).2 = Outcome.returned := by
  decide!

/-- C7 (method filter). For every inbound request whose method is not `GET`,
the client receives status 405 with the body "This method is not allowed\n",
no request, primary or follow-up, is sent to the origin, and the handler
returns. -/
theorem C7_method_filter (origin : Backend) (r : Request) (h : r.Method ≠ "GET".toList) :
    clientView (handler origin r).1 =
        [Event.writeHeader 405 [], Event.write "This method is not allowed\n".toList]
      ∧ (∀ e ∈ (handler origin r).1, e.isSend = false)
      ∧ (handler origin r).2 = Outcome.returned := by
  have hh : handler origin r =
      ((if debugOn r then [Event.print 36] else []) ++
        [Event.writeHeader StatusMethodNotAllowed [],
         Event.write "This method is not allowed\n".toList], Outcome.returned) := by
    unfold handler
    exact if_pos h
  rw [hh]
  cases debugOn r <;> simp [clientView, Event.isClient, Event.isSend, StatusMethodNotAllowed]

/-- C7 at a concrete input: a `POST` request. -/
theorem C7_method_filter_witness :
    clientView (handler (exampleBackend []) { exampleRequest with Method := "POST".toList }).1 =
        [Event.writeHeader 405 [], Event.write "This method is not allowed\n".toList]
      ∧ (∀ e ∈ (handler (exampleBackend []) { exampleRequest with Method := "POST".toList }).1,
          e.isSend = false)
      ∧ (handler (exampleBackend []) { exampleRequest with Method := "POST".toList }).2
          = Outcome.returned :=
  C7_method_filter (exampleBackend []) { exampleRequest with Method := "POST".toList } (by decide)

/-- C8 (client-visible response). For every `GET` request whose primary send
succeeds with response `resp`, the client receives exactly: the origin's status
code with headers `H`, then the origin's body, then the end of the response.
With diagnostics on (`FASTLY-DEBUG` non-empty) `H` is the origin's header map
unchanged; with diagnostics off `H` is the origin's header map without the
entries `CDN-Origin-Assist-Prefetch-Enabled` and `CDN-Origin-Assist-Prefetch-Path`:
these two have no value in `H` and every other header has the values the origin
gave it. -/
theorem C8_client_response (origin : Backend) (r : Request) (resp : Response)
    (hGET : r.Method = "GET".toList) (h0 : origin 0 = SendResult.ok resp) :
    ∃ H : Header,
      clientView (handler origin r).1 =
          [Event.writeHeader resp.StatusCode H, Event.write resp.Body, Event.close]
        ∧ (r.Header.Get "FASTLY-DEBUG".toList ≠ [] → H = resp.Header)
        ∧ (r.Header.Get "FASTLY-DEBUG".toList = [] →
            H = resp.Header.filter (fun e =>
                  e.1 ≠ CanonicalHeaderKey prefetchEnabledHeader
                    ∧ e.1 ≠ CanonicalHeaderKey prefetchPathHeader)
              ∧ H.Values prefetchEnabledHeader = []
              ∧ H.Values prefetchPathHeader = []
              ∧ ∀ k, CanonicalHeaderKey k ≠ CanonicalHeaderKey prefetchEnabledHeader →
                  CanonicalHeaderKey k ≠ CanonicalHeaderKey prefetchPathHeader →
                  H.Values k = resp.Header.Values k) := by
  obtain ⟨prints, hp, hh⟩ := handler_get_ok origin r resp hGET h0
  refine ⟨(if debugOn r then resp.Header
    else (resp.Header.Del prefetchEnabledHeader).Del prefetchPathHeader), ?_, ?_, ?_⟩
  · rw [hh]
    simp only [clientView, List.filter_append]
    rw [filter_eq_nil_of_prints _ isClient_of_isPrint prints hp]
    have := fetchLoop_no_client (debugOn r) origin (withPrefetchEnabled r) (prefetchListOf r resp) 0 1
    simp only [clientView] at this
    rw [this]
    by_cases hd : debugOn r = true <;> simp [hd, Event.isClient, List.filter_cons]
  · intro hd
    have : debugOn r = true := by simpa [debugOn] using hd
    simp [this]
  · intro hd
    have hd2 : debugOn r = false := by simpa [debugOn] using hd
    simp only [hd2, Bool.false_eq_true, if_false]
    refine ⟨?_, ?_, ?_, ?_⟩
    · simp only [Header.Del, List.filter_filter]
      congr 1
      funext e
      simp [Bool.and_comm]
    · simp [Header.values_del]
    · simp [Header.values_del]
    · intro k h1 h2
      simp [Header.values_del, h1, h2]

/-- C8 at a concrete input: the example request, diagnostics off. -/
theorem C8_client_response_witness :
    ∃ H : Header,
      clientView (handler (exampleBackend "/a".toList) exampleRequest).1 =
          [Event.writeHeader 200 H, Event.write "#EXTM3U\n".toList, Event.close]
        ∧ (exampleRequest.Header.Get "FASTLY-DEBUG".toList ≠ [] →
            H = (exampleResponse "/a".toList).Header)
        ∧ (exampleRequest.Header.Get "FASTLY-DEBUG".toList = [] →
            H = (exampleResponse "/a".toList).Header.filter (fun e =>
                  e.1 ≠ CanonicalHeaderKey prefetchEnabledHeader
                    ∧ e.1 ≠ CanonicalHeaderKey prefetchPathHeader)
              ∧ H.Values prefetchEnabledHeader = []
              ∧ H.Values prefetchPathHeader = []
              ∧ ∀ k, CanonicalHeaderKey k ≠ CanonicalHeaderKey prefetchEnabledHeader →
                  CanonicalHeaderKey k ≠ CanonicalHeaderKey prefetchPathHeader →
                  H.Values k = (exampleResponse "/a".toList).Header.Values k) :=
  C8_client_response (exampleBackend "/a".toList) exampleRequest (exampleResponse "/a".toList)
    (by decide) (by decide)

/-- C9 (commit before prefetch). In the trace of every invocation, a follow-up
request is preceded by the complete client response: somewhere before it the
trace holds, one after the other, the write of status and headers, the write
of the origin's full body, and the close of the client response. -/
theorem C9_commit_before_prefetch (origin : Backend) (r : Request) (i : Nat) (e : Event)
    (hi : (handler origin r).1[i]? = some e) (hf : e.isFollowUp = true) :
    ∃ (j : Nat) (resp : Response) (hdr : Header),
      origin 0 = SendResult.ok resp ∧ j + 2 < i
        ∧ (handler origin r).1[j]? = some (Event.writeHeader resp.StatusCode hdr)
        ∧ (handler origin r).1[j + 1]? = some (Event.write resp.Body)
        ∧ (handler origin r).1[j + 2]? = some Event.close := by
  by_cases hGET : r.Method = "GET".toList
  · cases h0 : origin 0 with
    | error msg =>
      rw [handler_get_error origin r msg hGET h0] at hi
      have hall : ∀ a ∈ (if debugOn r = true then [Event.print 36] else []) ++
          [Event.sendPrimary (withPrefetchEnabled r).Header,
           Event.writeHeader StatusBadGateway [], Event.write (msg ++ ['\n'])],
          a.isFollowUp = false := by
        cases hd : debugOn r <;> simp [Event.isFollowUp]
      rw [hall e (List.getElem?_mem hi)] at hf
      exact Bool.noConfusion hf
    | ok resp =>
      obtain ⟨prints, hp, hh⟩ := handler_get_ok origin r resp hGET h0
      rw [hh] at hi ⊢
      simp only [List.append_assoc, List.cons_append, List.nil_append] at hi ⊢
      rw [List.append_cons] at hi ⊢
      have hA : ∀ a ∈ (if debugOn r = true then [Event.print 36] else []) ++
          [Event.sendPrimary (withPrefetchEnabled r).Header], a.isFollowUp = false := by
        intro a ha
        cases hd : debugOn r <;> simp [hd] at ha
        · subst ha; rfl
        · rcases ha with ha | ha <;> subst ha <;> rfl
      have hlt := followUp_index _ _ _ _ _ e i hA (by rfl) (by rfl) (by rfl) hi hf
      obtain ⟨g1, g2, g3⟩ := getElem?_middle
        ((if debugOn r = true then [Event.print 36] else []) ++
          [Event.sendPrimary (withPrefetchEnabled r).Header])
        (prints ++ (fetchLoop (debugOn r) origin (withPrefetchEnabled r)
          (prefetchListOf r resp) 0 1).1)
        (Event.writeHeader resp.StatusCode
          (if debugOn r = true then resp.Header
           else (resp.Header.Del prefetchEnabledHeader).Del prefetchPathHeader))
        (Event.write resp.Body) Event.close
      exact ⟨_, resp, _, rfl, hlt, g1, g2, g3⟩
  · rw [handler_not_get origin r hGET] at hi
    have hall : ∀ a ∈ (if debugOn r = true then [Event.print 36] else []) ++
        [Event.writeHeader StatusMethodNotAllowed [],
         Event.write "This method is not allowed\n".toList], a.isFollowUp = false := by
      cases hd : debugOn r <;> simp [Event.isFollowUp]
    rw [hall e (List.getElem?_mem hi)] at hf
    exact Bool.noConfusion hf

/-- C9 at a concrete input: the first follow-up request of the example
invocation stands at index 4 of the trace. -/
theorem C9_commit_before_prefetch_witness :
    ∃ (j : Nat) (resp : Response) (hdr : Header),
      exampleBackend "/a".toList 0 = SendResult.ok resp ∧ j + 2 < 4
        ∧ (handler (exampleBackend "/a".toList) exampleRequest).1[j]?
            = some (Event.writeHeader resp.StatusCode hdr)
        ∧ (handler (exampleBackend "/a".toList) exampleRequest).1[j + 1]?
            = some (Event.write resp.Body)
        ∧ (handler (exampleBackend "/a".toList) exampleRequest).1[j + 2]? = some Event.close :=
  C9_commit_before_prefetch (exampleBackend "/a".toList) exampleRequest 4
    (Event.sendFollowUp
      { URL.zero with Scheme := "https".toList, Host := codes "example.com", Path := codes "/a",
                      RawQuery := "token=abc".toList }
      [("Cdn-Origin-Assist-Prefetch-Enabled".toList, [['1']])])
    (by decide!) (by decide!)

end AkaPrefetch
